import Mathlib

/-!
# Verification of the HexGame core

A shallow embedding of the Hex game engine (`HexGame.js` / `Player.js`):
board model, shape predicates, neighbor enumeration, win detection,
connected-component scoring, the heuristic ("medium") move policy and the
alpha-beta minimax search, together with proofs of the specified
properties.

Coordinates are modelled as `Int × Int` because the JavaScript neighbor
offsets can step to `-1`.  Cell contents: `getCell` returns `none` for an
out-of-bounds or shape-invalid coordinate (the JS board stores `null`
there), and `some o` for a real cell, where `o : Option Nat` is the owner
(`none` = empty, `some p` = owned by player `p`).

The JS search routines mutate a single shared board and undo each
speculative placement; since a placement followed by clearing restores the
board exactly (proved below as undo fidelity), the embedding passes boards
functionally: the recursive call receives the board with the stone placed
and the continuation keeps the original board.

Recursive graph traversals (`dfsVertical`, `dfsHorizontal`, the
connected-component worklist) terminate in JS because the visited set
grows inside a finite grid; the embedding makes this explicit with a fuel
parameter that the wrappers instantiate with a bound that is proved
sufficient (the adequacy hypotheses appear in the corresponding lemmas).
-/

namespace HexGame

/-- Board shapes accepted by `HexBoard` (`isCellValidForShape`). -/
inductive Shape where
  | hexagon
  | diamond
  | triangle
  | parallelogram
deriving DecidableEq, Repr

/-- The Hex board: a `size × size` grid plus a shape that marks a subset of
coordinates as playable.  `owner r c` is the owner of cell `(r, c)`; it is
only meaningful at valid positions (`getCell` hides the rest, as the JS
board stores `null` outside the shape). -/
structure HexBoard where
  size : Nat
  shape : Shape
  owner : Int → Int → Option Nat

/-- `HexBoard.isCellValidForShape`: whether `(row, col)` belongs to the
board's shape. -/
def isCellValidForShape (b : HexBoard) (row col : Int) : Bool :=
  match b.shape with
  | .hexagon => true
  | .diamond =>
      let center : Int := (b.size / 2 : Nat)
      decide (|row - center| + |col - center| ≤ center)
  | .triangle => decide (col ≤ row)
  | .parallelogram => true

/-- `HexBoard.isValidPosition`: in bounds and valid for the shape.  (The JS
version additionally tests `board[row][col] !== null`, but the board array
holds `null` exactly at the shape-invalid slots, so that test is
redundant.) -/
def isValidPosition (b : HexBoard) (row col : Int) : Bool :=
  if row < 0 ∨ row ≥ (b.size : Int) ∨ col < 0 ∨ col ≥ (b.size : Int) then false
  else isCellValidForShape b row col

/-- `HexBoard.getCell`: `none` for an invalid position, otherwise the cell
content (its owner field). -/
def getCell (b : HexBoard) (row col : Int) : Option (Option Nat) :=
  if isValidPosition b row col then some (b.owner row col) else none

/-- Write the owner field of one cell (the embedding of a JS assignment
`cell.player = v` to the cell object at `(row, col)`). -/
def setOwner (b : HexBoard) (row col : Int) (v : Option Nat) : HexBoard :=
  { b with owner := fun r c => if r = row ∧ c = col then v else b.owner r c }

/-- `HexBoard.makeMove`: fails (returning the board unchanged) unless the
cell exists and is empty; otherwise sets the owner. -/
def makeMove (b : HexBoard) (row col : Int) (playerNumber : Nat) :
    Bool × HexBoard :=
  match getCell b row col with
  | none => (false, b)
  | some o =>
    if o = none then (true, setOwner b row col (some playerNumber))
    else (false, b)

/-- The six neighbor offsets of `HexBoard.getNeighbors`, in source order. -/
def hexOffsets : List (Int × Int) :=
  [(-1, 0), (-1, 1), (0, 1), (1, 0), (1, -1), (0, -1)]

/-- `HexBoard.getNeighbors`: the offset positions whose cell exists. -/
def getNeighbors (b : HexBoard) (row col : Int) : List (Int × Int) :=
  (hexOffsets.map fun d => (row + d.1, col + d.2)).filter
    fun q => (getCell b q.1 q.2).isSome

/-- All grid coordinates in raster (row-major) order, the enumeration order
of every `for row … for col …` loop in the source. -/
def rasterCoords (b : HexBoard) : List (Int × Int) :=
  (List.range b.size).flatMap fun r =>
    (List.range b.size).map fun c => (Int.ofNat r, Int.ofNat c)

/-- `HexBoard.getEmptyCells`: the valid empty coordinates in raster order. -/
def getEmptyCells (b : HexBoard) : List (Int × Int) :=
  (rasterCoords b).filter fun q => getCell b q.1 q.2 = some none

/-- Owner test used throughout (`cell.isOwnedBy(p)` on an existing cell). -/
def ownedBy (b : HexBoard) (q : Int × Int) (p : Nat) : Bool :=
  decide (getCell b q.1 q.2 = some (some p))

/-- A freshly constructed board (`new HexBoard(size, shape)`): every cell
empty. -/
def freshBoard (size : Nat) (shape : Shape) : HexBoard :=
  { size := size, shape := shape, owner := fun _ _ => none }

/-! ## Win detection (`checkWin`, `dfsVertical`, `dfsHorizontal`)

The JS DFS threads one shared `visited` set through all recursive calls
and across seeds; the embedding threads it explicitly.  The loop over a
cell's neighbors is factored into `dfsLoop`, which takes the recursive
step (the DFS at the next fuel level) as a function argument so that both
functions are structurally recursive and reduce in the kernel.  A JS
`HexCell` handed to the DFS always sits at a valid position; the embedding
makes this explicit with an `isValidPosition` test (it never fails on the
calls the program performs). -/

/-- The neighbor loop shared by `dfsVertical`/`dfsHorizontal`: try each
neighbor owned by `p` and not yet visited, threading the visited set. -/
def dfsLoop (b : HexBoard) (p : Nat)
    (step : Int × Int → List (Int × Int) → Bool × List (Int × Int)) :
    List (Int × Int) → List (Int × Int) → Bool × List (Int × Int)
  | [], visited => (false, visited)
  | n :: ns, visited =>
    if ownedBy b n p ∧ n ∉ visited then
      match step n visited with
      | (true, visited') => (true, visited')
      | (false, visited') => dfsLoop b p step ns visited'
    else dfsLoop b p step ns visited

/-- `HexBoard.dfsVertical`: player 1's DFS towards the bottom row. -/
def dfsVertical (b : HexBoard) :
    Nat → Int × Int → List (Int × Int) → Bool × List (Int × Int)
  | 0, _, visited => (false, visited)
  | fuel + 1, c, visited =>
    if c ∈ visited then (false, visited)
    else if ¬ isValidPosition b c.1 c.2 then (false, visited)
    else
      let visited' := c :: visited
      if c.1 = (b.size : Int) - 1 then (true, visited')
      else dfsLoop b 1 (fun n v => dfsVertical b fuel n v)
        (getNeighbors b c.1 c.2) visited'

/-- `HexBoard.dfsHorizontal`: player 2's DFS towards the right column. -/
def dfsHorizontal (b : HexBoard) :
    Nat → Int × Int → List (Int × Int) → Bool × List (Int × Int)
  | 0, _, visited => (false, visited)
  | fuel + 1, c, visited =>
    if c ∈ visited then (false, visited)
    else if ¬ isValidPosition b c.1 c.2 then (false, visited)
    else
      let visited' := c :: visited
      if c.2 = (b.size : Int) - 1 then (true, visited')
      else dfsLoop b 2 (fun n v => dfsHorizontal b fuel n v)
        (getNeighbors b c.1 c.2) visited'

/-- Fuel passed to each DFS: strictly more than the number of grid cells,
so the visited set can never run it out. -/
def dfsFuel (b : HexBoard) : Nat := b.size * b.size + 1

/-- Seed loop of `checkVerticalConnection`: start a DFS from every top-row
cell owned by player 1, sharing the visited set. -/
def checkVerticalGo (b : HexBoard) :
    List Int → List (Int × Int) → Bool
  | [], _ => false
  | col :: cols, visited =>
    if ownedBy b (0, col) 1 = true then
      match dfsVertical b (dfsFuel b) (0, col) visited with
      | (true, _) => true
      | (false, visited') => checkVerticalGo b cols visited'
    else checkVerticalGo b cols visited

/-- `HexBoard.checkVerticalConnection`. -/
def checkVerticalConnection (b : HexBoard) : Bool :=
  checkVerticalGo b ((List.range b.size).map Int.ofNat) []

/-- Seed loop of `checkHorizontalConnection`: start from every left-column
cell owned by player 2. -/
def checkHorizontalGo (b : HexBoard) :
    List Int → List (Int × Int) → Bool
  | [], _ => false
  | row :: rows, visited =>
    if ownedBy b (row, 0) 2 = true then
      match dfsHorizontal b (dfsFuel b) (row, 0) visited with
      | (true, _) => true
      | (false, visited') => checkHorizontalGo b rows visited'
    else checkHorizontalGo b rows visited

/-- `HexBoard.checkHorizontalConnection`. -/
def checkHorizontalConnection (b : HexBoard) : Bool :=
  checkHorizontalGo b ((List.range b.size).map Int.ofNat) []

/-- `HexBoard.checkWin`: player 1 connects top to bottom, player 2 connects
left to right, any other identifier returns `false`. -/
def checkWin (b : HexBoard) (playerNumber : Nat) : Bool :=
  if playerNumber = 1 then checkVerticalConnection b
  else if playerNumber = 2 then checkHorizontalConnection b
  else false

/-! ## Position evaluation (`AIPlayer`)

`getConnectedComponent` is an explicit-stack worklist: pop a coordinate,
skip it if visited, otherwise mark it visited and — when the cell exists
and is owned by the player — collect it and push its unvisited neighbors.
The JS array `push`/`pop` works at the array's end; the embedding keeps
the stack head-first (push = cons), which pops pushed neighbors in the
same (reversed) order as JS.  One fuel unit per loop iteration. -/

/-- One player's number-opposite (`this.number === 1 ? 2 : 1`). -/
def oppOf (p : Nat) : Nat := if p = 1 then 2 else 1

/-- Worklist loop of `AIPlayer.getConnectedComponent`.  The JS owner test
`cell && cell.isOwnedBy(player)` is the `ownedBy` check (cell exists and
is owned). -/
def getCCGo (b : HexBoard) (playerNumber : Nat) :
    Nat → List (Int × Int) → List (Int × Int) → List (Int × Int) →
    List (Int × Int) × List (Int × Int)
  | 0, _, visited, component => (component, visited)
  | fuel + 1, stack, visited, component =>
    match stack with
    | [] => (component, visited)
    | c :: rest =>
      if c ∈ visited then getCCGo b playerNumber fuel rest visited component
      else
        let visited' := c :: visited
        if ownedBy b c playerNumber = true then
          let pushes :=
            ((getNeighbors b c.1 c.2).filter fun n => n ∉ visited').reverse
          getCCGo b playerNumber fuel (pushes ++ rest) visited'
            (component ++ [c])
        else getCCGo b playerNumber fuel rest visited' component

/-- Fuel for the worklist: each iteration either consumes a stack entry or
freshly visits a grid cell (pushing at most six neighbors), so this bound
is never reached from the seeds the program uses. -/
def ccFuel (b : HexBoard) : Nat := 7 * (b.size * b.size) + 2

/-- `AIPlayer.getConnectedComponent`: collect the component of
`(startRow, startCol)`, threading the caller's visited set. -/
def getConnectedComponent (b : HexBoard) (start : Int × Int)
    (playerNumber : Nat) (visited : List (Int × Int)) :
    List (Int × Int) × List (Int × Int) :=
  getCCGo b playerNumber (ccFuel b) [start] visited []

/-- Minimum of a nonempty list of `Int`s (`Math.min(...)`); `0` for `[]`
(the JS call sites only use nonempty lists). -/
def intListMin : List Int → Int
  | [] => 0
  | x :: xs => xs.foldl min x

/-- Maximum of a nonempty list of `Int`s (`Math.max(...)`). -/
def intListMax : List Int → Int
  | [] => 0
  | x :: xs => xs.foldl max x

/-- `AIPlayer.evaluateComponent`: size bonus, span bonus along the player's
connection axis, and edge-contact bonuses. -/
def evaluateComponent (component : List (Int × Int)) (boardSize : Nat)
    (playerNumber : Nat) : Int :=
  if component = [] then 0
  else
    let score : Int := component.length * 10
    if playerNumber = 1 then
      let minRow := intListMin (component.map Prod.fst)
      let maxRow := intListMax (component.map Prod.fst)
      let span := maxRow - minRow
      score + span * 50 + (if minRow = 0 then 100 else 0) +
        (if maxRow = (boardSize : Int) - 1 then 100 else 0)
    else
      let minCol := intListMin (component.map Prod.snd)
      let maxCol := intListMax (component.map Prod.snd)
      let span := maxCol - minCol
      score + span * 50 + (if minCol = 0 then 100 else 0) +
        (if maxCol = (boardSize : Int) - 1 then 100 else 0)

/-- Raster scan of `AIPlayer.calculateConnectivity`: seed a component
collection at every not-yet-visited cell owned by the player. -/
def calcConnGo (b : HexBoard) (playerNumber : Nat) :
    List (Int × Int) → List (Int × Int) → Int → Int
  | [], _, connectivity => connectivity
  | c :: rest, visited, connectivity =>
    if ownedBy b c playerNumber = true ∧ c ∉ visited then
      calcConnGo b playerNumber rest
        (getConnectedComponent b c playerNumber visited).2
        (connectivity + evaluateComponent
          (getConnectedComponent b c playerNumber visited).1
          b.size playerNumber)
    else calcConnGo b playerNumber rest visited connectivity

/-- `AIPlayer.calculateConnectivity`. -/
def calculateConnectivity (b : HexBoard) (playerNumber : Nat) : Int :=
  calcConnGo b playerNumber (rasterCoords b) [] 0

/-- `AIPlayer.evaluatePosition` for the AI playing as `p`: `(score,
isTerminal)`. -/
def evaluatePosition (p : Nat) (b : HexBoard) : Int × Bool :=
  if checkWin b p then (10000, true)
  else if checkWin b (oppOf p) then (-10000, true)
  else if getEmptyCells b = [] then (0, true)
  else (calculateConnectivity b p - calculateConnectivity b (oppOf p), false)

/-! ## Minimax search with alpha-beta pruning (`AIPlayer.makeMinimaxMove`)

JS scores are numbers, with `±Infinity` as the initial accumulators and
window bounds; the embedding uses integers extended with `⊥` and `⊤`.
The JS search mutates the shared board and undoes each move; by undo
fidelity the embedding hands the child call the board with the stone
placed and continues with the unchanged parent board. -/

/-- Extended integers: `ℤ` with `-Infinity` (`⊥`) and `Infinity` (`⊤`). -/
def EInt : Type := WithBot (WithTop ℤ)

instance : LinearOrder EInt := inferInstanceAs (LinearOrder (WithBot (WithTop ℤ)))
instance : OrderBot EInt := inferInstanceAs (OrderBot (WithBot (WithTop ℤ)))
instance : OrderTop EInt := inferInstanceAs (OrderTop (WithBot (WithTop ℤ)))

/-- A finite score as an extended integer. -/
def toE (n : Int) : EInt := ((n : WithTop ℤ) : WithBot (WithTop ℤ))

/-- Maximizing loop of `AIPlayer.minimax`: fold the children into a
running maximum, raising `alpha` and pruning as soon as `beta ≤ alpha`.
`f` is the recursive search one ply deeper (minimizing). -/
def abMaxGo (f : HexBoard → EInt → EInt → EInt) (b : HexBoard) (cur : Nat) :
    List (Int × Int) → EInt → EInt → EInt → EInt
  | [], maxEval, _, _ => maxEval
  | c :: cs, maxEval, alpha, beta =>
    let e := f (makeMove b c.1 c.2 cur).2 alpha beta
    let maxEval' := max maxEval e
    let alpha' := max alpha e
    if beta ≤ alpha' then maxEval'
    else abMaxGo f b cur cs maxEval' alpha' beta

/-- Minimizing loop of `AIPlayer.minimax`: running minimum, lowering
`beta`, same pruning test. -/
def abMinGo (f : HexBoard → EInt → EInt → EInt) (b : HexBoard) (cur : Nat) :
    List (Int × Int) → EInt → EInt → EInt → EInt
  | [], minEval, _, _ => minEval
  | c :: cs, minEval, alpha, beta =>
    let e := f (makeMove b c.1 c.2 cur).2 alpha beta
    let minEval' := min minEval e
    let beta' := min beta e
    if beta' ≤ alpha then minEval'
    else abMinGo f b cur cs minEval' alpha beta'

/-- `AIPlayer.minimax` (searching for side `p`): terminal or depth-0 nodes
return the evaluation, otherwise expand every empty cell for the side to
move at this ply. -/
def minimax (p : Nat) : Nat → HexBoard → Bool → EInt → EInt → EInt
  | 0, b, _, _, _ => toE (evaluatePosition p b).1
  | depth + 1, b, isMaximizing, alpha, beta =>
    let gameState := evaluatePosition p b
    if gameState.2 then toE gameState.1
    else if isMaximizing then
      abMaxGo (fun b' a' b'' => minimax p depth b' false a' b'') b p
        (getEmptyCells b) ⊥ alpha beta
    else
      abMinGo (fun b' a' b'' => minimax p depth b' true a' b'') b (oppOf p)
        (getEmptyCells b) ⊤ alpha beta

/-- Unpruned exhaustive minimax at the same depth, from the spec's words:
identical terminal/leaf rule and empty-cell enumeration order, folding
children into a plain maximum / minimum with no window. -/
def minimaxPlain (p : Nat) : Nat → HexBoard → Bool → EInt
  | 0, b, _ => toE (evaluatePosition p b).1
  | depth + 1, b, isMaximizing =>
    let gameState := evaluatePosition p b
    if gameState.2 then toE gameState.1
    else if isMaximizing then
      ((getEmptyCells b).map fun c =>
        minimaxPlain p depth (makeMove b c.1 c.2 p).2 false).foldl max ⊥
    else
      ((getEmptyCells b).map fun c =>
        minimaxPlain p depth (makeMove b c.1 c.2 (oppOf p)).2 true).foldl min ⊤

/-- Depth policy of `AIPlayer.makeMinimaxMove`, from the number of empty
cells. -/
def minimaxMaxDepth (emptyCount : Nat) : Nat :=
  if emptyCount > 20 then 3 else if emptyCount > 10 then 4 else 5

/-- Top-level selection loop: keep the first strictly improving move. -/
def bestMoveGo (score : Int × Int → EInt) :
    List (Int × Int) → EInt → Option (Int × Int) → Option (Int × Int)
  | [], _, bestMove => bestMove
  | c :: cs, bestScore, bestMove =>
    let s := score c
    if s > bestScore then bestMoveGo score cs s (some c)
    else bestMoveGo score cs bestScore bestMove

/-- `AIPlayer.makeRandomMove`: a uniformly random empty cell; the random
draw is threaded in as the index `rand` (reduced modulo the list length,
as `Math.floor(Math.random() * length)` always lands in range). -/
def makeRandomMove (emptyCells : List (Int × Int)) (rand : Nat) :
    Option (Int × Int) :=
  emptyCells.get? (rand % emptyCells.length)

/-- `AIPlayer.makeMinimaxMove`: alpha-beta search from every empty cell
(one ply in, minimizing, full window), first-seen tie-break. -/
def makeMinimaxMove (p : Nat) (b : HexBoard) (rand : Nat) :
    Option (Int × Int) :=
  if getEmptyCells b = [] then none
  else
    match bestMoveGo
        (fun c => minimax p (minimaxMaxDepth (getEmptyCells b).length - 1)
          (makeMove b c.1 c.2 p).2 false ⊥ ⊤)
        (getEmptyCells b) ⊥ none with
    | some m => some m
    | none => makeRandomMove (getEmptyCells b) rand

/-- The same top-level selection driven by the unpruned search — the
reference point of the pruning-equivalence property. -/
def makeMinimaxMovePlain (p : Nat) (b : HexBoard) (rand : Nat) :
    Option (Int × Int) :=
  if getEmptyCells b = [] then none
  else
    match bestMoveGo
        (fun c => minimaxPlain p (minimaxMaxDepth (getEmptyCells b).length - 1)
          (makeMove b c.1 c.2 p).2 false)
        (getEmptyCells b) ⊥ none with
    | some m => some m
    | none => makeRandomMove (getEmptyCells b) rand

/-! ## The heuristic ("medium") policy -/

/-- Per-cell score of `AIPlayer.findStrategicMove`: `+10` per neighbor
already owned, plus a centrality bonus along the axis orthogonal to the
player's goal. -/
def findStrategicScore (b : HexBoard) (myNumber : Nat) (c : Int × Int) :
    Int :=
  let neighborScore : Int :=
    10 * ((getNeighbors b c.1 c.2).filter fun n => ownedBy b n myNumber).length
  if myNumber = 1 then
    neighborScore + ((b.size : Int) - |c.2 - ((b.size / 2 : Nat) : Int)|)
  else
    neighborScore + ((b.size : Int) - |c.1 - ((b.size / 2 : Nat) : Int)|)

/-- `AIPlayer.findStrategicMove`: keep the positively scored cells, sort
them by score (descending, stable — JS `Array.prototype.sort` is stable)
and take the head. -/
def findStrategicMove (b : HexBoard) (myNumber : Nat)
    (emptyCells : List (Int × Int)) : Option (Int × Int) :=
  let bestMoves :=
    (emptyCells.map fun c => (c, findStrategicScore b myNumber c)).filter
      fun x => x.2 > 0
  if bestMoves = [] then none
  else ((bestMoves.mergeSort fun x y => y.2 ≤ x.2).head?).map Prod.fst

/-- `AIPlayer.makeMediumMove`: win now if possible, else block an
opponent's immediate win, else the strategic move, else random. -/
def makeMediumMove (p : Nat) (b : HexBoard) (emptyCells : List (Int × Int))
    (rand : Nat) : Option (Int × Int) :=
  match emptyCells.find?
      (fun c => checkWin (makeMove b c.1 c.2 p).2 p) with
  | some c => some c
  | none =>
    match emptyCells.find?
        (fun c => checkWin (makeMove b c.1 c.2 (oppOf p)).2 (oppOf p)) with
    | some c => some c
    | none =>
      match findStrategicMove b p emptyCells with
      | some c => some c
      | none => makeRandomMove emptyCells rand

/-! ## Game flow (`HexGame`) -/

/-- The game state `HexGame` threads through `makeMove`: the board, whose
turn it is (index `0` ↦ player number 1, index `1` ↦ player number 2),
and the game-over flag.  Move history and winner bookkeeping do not feed
back into the move legality beyond `gameOver`, so they are omitted. -/
structure GameState where
  board : HexBoard
  currentPlayerIndex : Nat
  gameOver : Bool

/-- `new HexGame(size, mode, shape)`: fresh board, player 1 to move. -/
def initialGame (size : Nat) (shape : Shape) : GameState :=
  { board := freshBoard size shape, currentPlayerIndex := 0, gameOver := false }

/-- `HexGame.makeMove`: refuse the move once the game is over, on an
invalid position, or on an occupied cell; otherwise place the current
player's stone, end the game on a win or a full board, and otherwise pass
the turn. -/
def gameMakeMove (g : GameState) (row col : Int) : GameState :=
  if g.gameOver then g
  else if ¬ isValidPosition g.board row col then g
  else if ¬ (getCell g.board row col = some none) then g
  else
    let p := g.currentPlayerIndex + 1
    let b' := (makeMove g.board row col p).2
    if checkWin b' p then { g with board := b', gameOver := true }
    else if getEmptyCells b' = [] then { g with board := b', gameOver := true }
    else { board := b', currentPlayerIndex := 1 - g.currentPlayerIndex,
           gameOver := false }

/-- States reachable from a freshly constructed game by (attempted) legal
placements. -/
inductive ReachableGame : GameState → Prop
  | init (size : Nat) (shape : Shape) : ReachableGame (initialGame size shape)
  | move {g : GameState} (row col : Int) :
      ReachableGame g → ReachableGame (gameMakeMove g row col)

/-- `HexGame.reset`: `new HexBoard(this.board.size)` — same size, but the
shape argument is not forwarded, so the new board gets the default
`'hexagon'` shape. -/
def gameReset (g : GameState) : GameState :=
  { board := freshBoard g.board.size Shape.hexagon, currentPlayerIndex := 0,
    gameOver := false }

/-! ## Specification-side notions

Connectivity between same-side cells, phrased mathematically
(reflexive-transitive closure of single adjacency steps), used to state
what the DFS routines and the component analysis compute. -/

/-- One step of player 1's winning chain: move to an adjacent cell owned
by player 1. -/
def StepV (b : HexBoard) (u v : Int × Int) : Prop :=
  v ∈ getNeighbors b u.1 u.2 ∧ ownedBy b v 1 = true

/-- Chains of `StepV` steps. -/
def ReachV (b : HexBoard) : Int × Int → Int × Int → Prop :=
  Relation.ReflTransGen (StepV b)

/-- One step of player 2's winning chain. -/
def StepH (b : HexBoard) (u v : Int × Int) : Prop :=
  v ∈ getNeighbors b u.1 u.2 ∧ ownedBy b v 2 = true

/-- Chains of `StepH` steps. -/
def ReachH (b : HexBoard) : Int × Int → Int × Int → Prop :=
  Relation.ReflTransGen (StepH b)

/-- Player 1 has a chain of own cells from the top row to the bottom row. -/
def winPathV (b : HexBoard) : Prop :=
  ∃ s t : Int × Int, s.1 = 0 ∧ ownedBy b s 1 = true ∧ ReachV b s t ∧
    t.1 = (b.size : Int) - 1

/-- Player 2 has a chain of own cells from the left to the right column. -/
def winPathH (b : HexBoard) : Prop :=
  ∃ s t : Int × Int, s.2 = 0 ∧ ownedBy b s 2 = true ∧ ReachH b s t ∧
    t.2 = (b.size : Int) - 1

/-- One step inside a connected component of player `p`: both endpoints
owned by `p` and adjacent. -/
def StepC (b : HexBoard) (p : Nat) (u v : Int × Int) : Prop :=
  v ∈ getNeighbors b u.1 u.2 ∧ ownedBy b u p = true ∧ ownedBy b v p = true

/-- Same-side connectivity: `ReachC b p s y` means `y` lies in the
connected component of `s` among `p`'s cells. -/
def ReachC (b : HexBoard) (p : Nat) : Int × Int → Int × Int → Prop :=
  Relation.ReflTransGen (StepC b p)

/-- The connection axis of side `p`: rows for player 1, columns for
player 2. -/
def axisOf (p : Nat) : Int × Int → Int :=
  if p = 1 then Prod.fst else Prod.snd

/-- The component score stated by the spec: `10` per cell, `50` per unit
of span along the side's connection axis, `+100` for touching the start
boundary and `+100` for touching the goal boundary. -/
def specComponentScore (boardSize : Nat) (p : Nat) (K : Finset (Int × Int)) :
    Int :=
  10 * K.card +
    50 * (((K.image (axisOf p)).max.getD 0) - ((K.image (axisOf p)).min.getD 0)) +
    (if ∃ q ∈ K, axisOf p q = 0 then 100 else 0) +
    (if ∃ q ∈ K, axisOf p q = (boardSize : Int) - 1 then 100 else 0)

/-- Invariant of the player-1 DFS visited set after failed searches: no
visited cell is on the goal row, and the visited set is closed under
moving to an adjacent player-1 cell. -/
def ClosedNGV (b : HexBoard) (V : List (Int × Int)) : Prop :=
  ∀ z ∈ V, z.1 ≠ (b.size : Int) - 1 ∧
    ∀ n ∈ getNeighbors b z.1 z.2, ownedBy b n 1 = true → n ∈ V

/-- The cells a failed player-1 DFS newly visited: none is on the goal
row, and their adjacent player-1 cells all ended up visited. -/
def NewClosedV (b : HexBoard) (V V' : List (Int × Int)) : Prop :=
  ∀ z ∈ V', z ∉ V → z.1 ≠ (b.size : Int) - 1 ∧
    ∀ n ∈ getNeighbors b z.1 z.2, ownedBy b n 1 = true → n ∈ V'

/-- Player-2 analogue of `ClosedNGV` (goal column instead of goal row). -/
def ClosedNGH (b : HexBoard) (V : List (Int × Int)) : Prop :=
  ∀ z ∈ V, z.2 ≠ (b.size : Int) - 1 ∧
    ∀ n ∈ getNeighbors b z.1 z.2, ownedBy b n 2 = true → n ∈ V

/-- Player-2 analogue of `NewClosedV`. -/
def NewClosedH (b : HexBoard) (V V' : List (Int × Int)) : Prop :=
  ∀ z ∈ V', z ∉ V → z.2 ≠ (b.size : Int) - 1 ∧
    ∀ n ∈ getNeighbors b z.1 z.2, ownedBy b n 2 = true → n ∈ V'

/-- Invariant of the component scan's visited set: the visited cells owned
by `p` have all their `p`-owned neighbors visited too (no component is
visited halfway). -/
def OwnClosed (b : HexBoard) (p : Nat) (V : List (Int × Int)) : Prop :=
  ∀ z ∈ V, ownedBy b z p = true →
    ∀ n ∈ getNeighbors b z.1 z.2, ownedBy b n p = true → n ∈ V

/-- A corner of the `N × N` grid. -/
def isCornerCoord (N : Nat) (q : Int × Int) : Prop :=
  (q.1 = 0 ∨ q.1 = (N : Int) - 1) ∧ (q.2 = 0 ∨ q.2 = (N : Int) - 1)

/-- A boundary coordinate of the `N × N` grid. -/
def isEdgeCoord (N : Nat) (q : Int × Int) : Prop :=
  q.1 = 0 ∨ q.1 = (N : Int) - 1 ∨ q.2 = 0 ∨ q.2 = (N : Int) - 1

/-! ## Auxiliary counting notions used by the fuel-adequacy arguments -/

/-- The valid coordinates of the board, in raster order. -/
def validCells (b : HexBoard) : List (Int × Int) :=
  (rasterCoords b).filter fun q => isValidPosition b q.1 q.2

/-- How many valid coordinates a visited set has not yet reached. -/
def unvisitedCount (b : HexBoard) (V : List (Int × Int)) : Nat :=
  ((validCells b).filter fun q => decide (q ∉ V)).length

/-! ## Concrete boards used by the witnesses -/

/-- 2×2 board, player 1 on `(0,0)`. -/
def boardA : HexBoard :=
  { size := 2, shape := Shape.hexagon,
    owner := fun r c => if r = 0 ∧ c = 0 then some 1 else none }

/-- 2×2 board, player 1 on `(0,0)` and `(1,0)` (a winning chain for 1). -/
def boardB : HexBoard :=
  { size := 2, shape := Shape.hexagon,
    owner := fun r c => if (r = 0 ∧ c = 0) ∨ (r = 1 ∧ c = 0) then some 1
      else none }

/-- `boardB` with one more player-1 stone on `(1,1)`. -/
def boardC : HexBoard :=
  { size := 2, shape := Shape.hexagon,
    owner := fun r c =>
      if (r = 0 ∧ c = 0) ∨ (r = 1 ∧ c = 0) ∨ (r = 1 ∧ c = 1) then some 1
      else none }

/-! # Theorems

Basic facts about cells, positions and neighbors, followed by the claims. -/

lemma isValidPosition_setOwner (b : HexBoard) (r c v r' c') :
    isValidPosition (setOwner b r c v) r' c' = isValidPosition b r' c' := rfl

lemma getCell_setOwner (b : HexBoard) (r c : Int) (v : Option Nat)
    (r' c' : Int) :
    getCell (setOwner b r c v) r' c' =
      if r' = r ∧ c' = c then
        (if isValidPosition b r' c' = true then some v else none)
      else getCell b r' c' := by
  by_cases h : r' = r ∧ c' = c
  · obtain ⟨h1, h2⟩ := h
    subst h1; subst h2
    simp only [getCell, isValidPosition_setOwner]
    have ho : (setOwner b r' c' v).owner r' c' = v := by simp [setOwner]
    rw [ho]; simp
  · simp only [getCell, isValidPosition_setOwner]
    have ho : (setOwner b r c v).owner r' c' = b.owner r' c' := by
      simp [setOwner, h]
    rw [ho]; simp [h]

lemma getCell_valid {b : HexBoard} {r c : Int} {o : Option Nat}
    (h : getCell b r c = some o) : isValidPosition b r c = true := by
  by_cases hv : isValidPosition b r c = true
  · exact hv
  · simp [getCell, hv] at h

lemma getCell_owner {b : HexBoard} {r c : Int} {o : Option Nat}
    (h : getCell b r c = some o) : b.owner r c = o := by
  have hv := getCell_valid h
  simpa [getCell, hv] using h

/-- **C2.** Undo fidelity: placing a mark with `HexBoard.makeMove` on an
empty playable coordinate and then clearing that cell (setting its player
back to `null`) restores every cell of the board. -/
theorem undo_fidelity (b : HexBoard) (r c : Int) (p : Nat)
    (hv : isValidPosition b r c = true) (he : getCell b r c = some none) :
    ∀ r' c', getCell (setOwner (makeMove b r c p).2 r c none) r' c' =
      getCell b r' c' := by
  intro r' c'
  have hmk : (makeMove b r c p).2 = setOwner b r c (some p) := by
    simp [makeMove, he]
  rw [hmk, getCell_setOwner, getCell_setOwner, isValidPosition_setOwner]
  by_cases h : r' = r ∧ c' = c
  · obtain ⟨h1, h2⟩ := h
    subst h1; subst h2
    simp [hv, he.symm]
  · simp [h]

/-- Witness for `undo_fidelity` on a concrete board and cell. -/
theorem undo_fidelity_witness :
    isValidPosition boardA 0 1 = true ∧ getCell boardA 0 1 = some none ∧
    ∀ r' c', getCell (setOwner (makeMove boardA 0 1 2).2 0 1 none) r' c' =
      getCell boardA r' c' :=
  ⟨by decide, by decide, undo_fidelity boardA 0 1 2 (by decide) (by decide)⟩

/-- **C9.** `HexBoard.makeMove` semantics: on an out-of-bounds,
shape-invalid or occupied coordinate it fails and changes nothing; on a
valid empty coordinate it succeeds and changes exactly the targeted
cell's owner. -/
theorem makeMove_semantics (b : HexBoard) (r c : Int) (p : Nat) :
    ((¬ isValidPosition b r c = true ∨ ¬ getCell b r c = some none) →
      (makeMove b r c p).1 = false ∧
      ∀ r' c', getCell (makeMove b r c p).2 r' c' = getCell b r' c') ∧
    (isValidPosition b r c = true → getCell b r c = some none →
      (makeMove b r c p).1 = true ∧
      getCell (makeMove b r c p).2 r c = some (some p) ∧
      ∀ r' c', ¬ (r' = r ∧ c' = c) →
        getCell (makeMove b r c p).2 r' c' = getCell b r' c') := by
  constructor
  · intro h
    have hfail : makeMove b r c p = (false, b) := by
      rcases h with h | h
      · simp [makeMove, getCell, h]
      · unfold makeMove
        rcases hc : getCell b r c with _ | o
        · rfl
        · have : ¬ o = none := fun ho => h (ho ▸ hc)
          simp [this]
    simp [hfail]
  · intro hv he
    have hmk : makeMove b r c p = (true, setOwner b r c (some p)) := by
      simp [makeMove, he]
    refine ⟨by simp [hmk], ?_, ?_⟩
    · simp [hmk, getCell_setOwner, hv]
    · intro r' c' hne
      simp [hmk, getCell_setOwner, hne]

/-- Witness for `makeMove_semantics`: a rejected move on an occupied cell
and an accepted move on an empty cell of a concrete board. -/
theorem makeMove_semantics_witness :
    ((makeMove boardA 0 0 2).1 = false ∧
      ∀ r' c', getCell (makeMove boardA 0 0 2).2 r' c' = getCell boardA r' c') ∧
    ((makeMove boardA 1 0 2).1 = true ∧
      getCell (makeMove boardA 1 0 2).2 1 0 = some (some 2) ∧
      ∀ r' c', ¬ (r' = 1 ∧ c' = 0) →
        getCell (makeMove boardA 1 0 2).2 r' c' = getCell boardA r' c') :=
  ⟨(makeMove_semantics boardA 0 0 2).1 (Or.inr (by decide)),
   (makeMove_semantics boardA 1 0 2).2 (by decide) (by decide)⟩

/-- **C4.** Depth policy of `AIPlayer.makeMinimaxMove`: depth 3 above 20
empty cells, 4 between 11 and 20, 5 at 10 or fewer. -/
theorem depth_policy (b : HexBoard) :
    (20 < (getEmptyCells b).length →
      minimaxMaxDepth (getEmptyCells b).length = 3) ∧
    (11 ≤ (getEmptyCells b).length ∧ (getEmptyCells b).length ≤ 20 →
      minimaxMaxDepth (getEmptyCells b).length = 4) ∧
    ((getEmptyCells b).length ≤ 10 →
      minimaxMaxDepth (getEmptyCells b).length = 5) := by
  unfold minimaxMaxDepth
  refine ⟨fun h => ?_, fun h => ?_, fun h => ?_⟩ <;> split_ifs <;> omega

/-- Witness for `depth_policy`: 25, 16 and 9 empty cells select depths 3,
4 and 5. -/
theorem depth_policy_witness :
    minimaxMaxDepth (getEmptyCells (freshBoard 5 Shape.hexagon)).length = 3 ∧
    minimaxMaxDepth (getEmptyCells (freshBoard 4 Shape.hexagon)).length = 4 ∧
    minimaxMaxDepth (getEmptyCells (freshBoard 3 Shape.hexagon)).length = 5 :=
  ⟨(depth_policy (freshBoard 5 Shape.hexagon)).1 (by decide),
   (depth_policy (freshBoard 4 Shape.hexagon)).2.1 (by decide),
   (depth_policy (freshBoard 3 Shape.hexagon)).2.2 (by decide)⟩

/-- **C10.** `HexGame.reset` always rebuilds the board with the default
`'hexagon'` shape: after resetting a game constructed with the diamond or
triangle shape, every in-bounds coordinate that was non-playable is
playable and empty. -/
theorem reset_default_shape (g : GameState)
    (_hshape : g.board.shape = Shape.diamond ∨ g.board.shape = Shape.triangle) :
    (gameReset g).board.shape = Shape.hexagon ∧
    ∀ r c : Int, 0 ≤ r → r < (g.board.size : Int) → 0 ≤ c →
      c < (g.board.size : Int) → isValidPosition g.board r c = false →
      isValidPosition (gameReset g).board r c = true ∧
      getCell (gameReset g).board r c = some none := by
  refine ⟨rfl, fun r c hr0 hr hc0 hc _ => ?_⟩
  have hv : isValidPosition (gameReset g).board r c = true := by
    show isValidPosition (freshBoard g.board.size Shape.hexagon) r c = true
    unfold isValidPosition
    rw [if_neg]
    · rfl
    · push_neg; exact ⟨hr0, hr, hc0, hc⟩
  refine ⟨hv, ?_⟩
  unfold getCell
  rw [if_pos hv]
  rfl

/-- Witness for `reset_default_shape`: a size-3 diamond game whose corner
`(0,0)` is non-playable becomes playable and empty after reset. -/
theorem reset_default_shape_witness :
    (gameReset (initialGame 3 Shape.diamond)).board.shape = Shape.hexagon ∧
    (isValidPosition (initialGame 3 Shape.diamond).board 0 0 = false ∧
      isValidPosition (gameReset (initialGame 3 Shape.diamond)).board 0 0 = true ∧
      getCell (gameReset (initialGame 3 Shape.diamond)).board 0 0 = some none) :=
  ⟨(reset_default_shape (initialGame 3 Shape.diamond) (Or.inl rfl)).1,
   by decide,
   (reset_default_shape (initialGame 3 Shape.diamond) (Or.inl rfl)).2 0 0
     (by decide) (by decide) (by decide) (by decide) (by decide)⟩

/-- **C6.** The heuristic ("medium") policy wins when it can: if some
empty coordinate completes a win for the searching side, the returned
move is such a winning coordinate (the win-for-self probe runs before any
blocking or strategic consideration). -/
theorem medium_immediate_win (p : Nat) (b : HexBoard) (rand : Nat)
    (hwin : ∃ c ∈ getEmptyCells b,
      checkWin (makeMove b c.1 c.2 p).2 p = true) :
    ∃ c, makeMediumMove p b (getEmptyCells b) rand = some c ∧
      c ∈ getEmptyCells b ∧ checkWin (makeMove b c.1 c.2 p).2 p = true := by
  rcases hfind : (getEmptyCells b).find?
      (fun c => checkWin (makeMove b c.1 c.2 p).2 p) with _ | c
  · exfalso
    obtain ⟨c, hc, hcw⟩ := hwin
    exact absurd hcw (by simpa using List.find?_eq_none.mp hfind c hc)
  · refine ⟨c, ?_, List.mem_of_find?_eq_some hfind, ?_⟩
    · unfold makeMediumMove
      rw [hfind]
    · simpa using List.find?_some hfind

/-- Witness for `medium_immediate_win`: on `boardA` (player 1 holding
`(0,0)` of a 2×2 board) the move `(1,0)` completes a win, and the medium
policy indeed returns a winning coordinate. -/
theorem medium_immediate_win_witness :
    ∃ c, makeMediumMove 1 boardA (getEmptyCells boardA) 0 = some c ∧
      c ∈ getEmptyCells boardA ∧
      checkWin (makeMove boardA c.1 c.2 1).2 1 = true :=
  medium_immediate_win 1 boardA 0
    ⟨(1, 0), by decide, by decide⟩

lemma isValid_hexagon {b : HexBoard} (hsh : b.shape = Shape.hexagon)
    (r c : Int) :
    isValidPosition b r c = true ↔
      0 ≤ r ∧ r < (b.size : Int) ∧ 0 ≤ c ∧ c < (b.size : Int) := by
  simp only [isValidPosition, isCellValidForShape, hsh]
  split
  · rename_i h
    constructor
    · intro hf; exact absurd hf (by simp)
    · intro hb; omega
  · rename_i h
    push_neg at h
    simp only [true_iff]
    exact ⟨h.1, h.2.1, h.2.2.1, h.2.2.2⟩

lemma getCell_isSome (b : HexBoard) (r c : Int) :
    (getCell b r c).isSome = isValidPosition b r c := by
  unfold getCell
  split
  · rename_i h; simp [h]
  · rename_i h
    simp only [Option.isSome_none]
    exact ((Bool.not_eq_true _).mp fun ht => h ht).symm

instance (N : Nat) (q : Int × Int) : Decidable (isCornerCoord N q) := by
  unfold isCornerCoord; infer_instance

instance (N : Nat) (q : Int × Int) : Decidable (isEdgeCoord N q) := by
  unfold isEdgeCoord; infer_instance

/-- **C3 (counterexample).** On the unrestricted 3×3 board the corner
`(0, 2)` has 3 neighbors, not 2: the claim that every corner has exactly
2 neighbors fails. -/
theorem neighbor_counts_cex :
    isCornerCoord 3 (0, 2) ∧
    (getNeighbors (freshBoard 3 Shape.hexagon) 0 2).length ≠ 2 := by
  constructor
  · exact ⟨Or.inl rfl, Or.inr rfl⟩
  · decide

set_option maxHeartbeats 3200000 in
/-- **C3 (amended).** Neighbor counts on an unrestricted (hexagon-shape)
board of size ≥ 2: the corners `(0,0)` and `(N-1,N-1)` have exactly 2
neighbors, the other two corners `(0,N-1)` and `(N-1,0)` have exactly 3,
non-corner boundary coordinates have exactly 4, and interior coordinates
have exactly 6. -/
theorem neighbor_counts_amended (b : HexBoard)
    (hsh : b.shape = Shape.hexagon) (hsz : 2 ≤ b.size) (r c : Int)
    (hv : isValidPosition b r c = true) :
    (getNeighbors b r c).length =
      if (r = 0 ∧ c = 0) ∨
          (r = (b.size : Int) - 1 ∧ c = (b.size : Int) - 1) then 2
      else if (r = 0 ∧ c = (b.size : Int) - 1) ∨
          (r = (b.size : Int) - 1 ∧ c = 0) then 3
      else if isEdgeCoord b.size (r, c) then 4
      else 6 := by
  rw [isValid_hexagon hsh] at hv
  obtain ⟨hr0, hr1, hc0, hc1⟩ := hv
  have hN : (2 : Int) ≤ (b.size : Int) := by exact_mod_cast hsz
  unfold getNeighbors hexOffsets
  rw [← List.countP_eq_length_filter]
  simp only [List.map_cons, List.map_nil, List.countP_cons, List.countP_nil,
    getCell_isSome, isValid_hexagon hsh, isEdgeCoord, decide_eq_true_eq]
  split_ifs <;> omega

/-! ## Alpha-beta pruning equivalence (C1)

The classical Knuth–Moore fail-soft conditions: within the window the
pruned value is exact, outside it it is a sound bound.  At the root the
window is `(⊥, ⊤)`, so the pruned and unpruned child values coincide and
the two top-level selection loops pick the same move. -/

instance : Nontrivial EInt := inferInstanceAs (Nontrivial (WithBot (WithTop ℤ)))

/-- Fail-soft conditions for a pruned value `u` against the true value `v`
in the window `(lo, hi)`. -/
def ABTriple (u v lo hi : EInt) : Prop :=
  (u ≤ lo → v ≤ u) ∧ (hi ≤ u → u ≤ v) ∧ (lo < u → u < hi → u = v)

lemma abTriple_refl (u lo hi : EInt) : ABTriple u u lo hi :=
  ⟨fun _ => le_refl u, fun _ => le_refl u, fun _ _ => rfl⟩

lemma foldl_max_init (l : List EInt) (u : EInt) :
    l.foldl max u = max u (l.foldl max ⊥) := by
  induction l generalizing u with
  | nil => simp [max_eq_left (bot_le : (⊥ : EInt) ≤ u)]
  | cons x l ih =>
    simp only [List.foldl_cons]
    rw [ih (max u x), ih (max ⊥ x), max_eq_right (bot_le : (⊥ : EInt) ≤ x),
      max_assoc]

lemma foldl_min_init (l : List EInt) (u : EInt) :
    l.foldl min u = min u (l.foldl min ⊤) := by
  induction l generalizing u with
  | nil => simp [min_eq_left (le_top : u ≤ (⊤ : EInt))]
  | cons x l ih =>
    simp only [List.foldl_cons]
    rw [ih (min u x), ih (min ⊤ x), min_eq_right (le_top : x ≤ (⊤ : EInt)),
      min_assoc]

lemma abMaxGo_triple (f : HexBoard → EInt → EInt → EInt)
    (w : Int × Int → EInt) (b : HexBoard) (cur : Nat) :
    ∀ (cs : List (Int × Int)) (u a lo hi : EInt), a < hi → a = max lo u →
      (∀ c ∈ cs, ∀ a' h' : EInt, a' < h' →
        ABTriple (f (makeMove b c.1 c.2 cur).2 a' h') (w c) a' h') →
      ABTriple (abMaxGo f b cur cs u a hi)
        (max u ((cs.map w).foldl max ⊥)) lo hi := by
  intro cs
  induction cs with
  | nil =>
    intro u a lo hi _ _ _
    simpa [abMaxGo, max_eq_left (bot_le : (⊥ : EInt) ≤ u)] using
      abTriple_refl u lo hi
  | cons c cs ih =>
    intro u a lo hi hahi ham hcs
    have hTc : ABTriple (f (makeMove b c.1 c.2 cur).2 a hi) (w c) a hi :=
      hcs c (List.mem_cons_self c cs) a hi hahi
    set e := f (makeMove b c.1 c.2 cur).2 a hi with he
    have hloa : lo ≤ a := ham ▸ le_max_left lo u
    have hlohi : lo < hi := lt_of_le_of_lt hloa hahi
    have hV : max u (((c :: cs).map w).foldl max ⊥) =
        max u (max (w c) ((cs.map w).foldl max ⊥)) := by
      simp only [List.map_cons, List.foldl_cons]
      rw [foldl_max_init, max_eq_right (bot_le : (⊥ : EInt) ≤ w c)]
    rw [hV]
    set W := (cs.map w).foldl max ⊥ with hW
    show ABTriple
      (if hi ≤ max a e then max u e
        else abMaxGo f b cur cs (max u e) (max a e) hi)
      (max u (max (w c) W)) lo hi
    by_cases hbr : hi ≤ max a e
    · rw [if_pos hbr]
      have hhe : hi ≤ e := by
        rcases le_max_iff.mp hbr with h | h
        · exact absurd h (not_le.mpr hahi)
        · exact h
      have hew : e ≤ w c := hTc.2.1 hhe
      refine ⟨fun hle => ?_, fun _ => ?_, fun hgt hlt => ?_⟩
      · exact absurd (lt_of_lt_of_le hlohi (le_trans hhe (le_max_right u e)))
          (not_lt.mpr hle)
      · exact max_le (le_max_left _ _)
          (le_trans hew (le_trans (le_max_left _ _) (le_max_right _ _)))
      · exact absurd hlt
          (not_lt.mpr (le_trans hhe (le_max_right u e)))
    · rw [if_neg hbr]
      have hbr' : max a e < hi := not_le.mp hbr
      have hehi : e < hi := lt_of_le_of_lt (le_max_right a e) hbr'
      have ham' : max a e = max lo (max u e) := by
        rw [ham, max_assoc]
      have IH := ih (max u e) (max a e) lo hi hbr' ham'
        (fun c' hc' => hcs c' (List.mem_cons_of_mem c hc'))
      set R := abMaxGo f b cur cs (max u e) (max a e) hi with hR
      have hVle : e ≤ a → max (max u e) W ≤ max lo (max u (max (w c) W)) := by
        intro hea
        refine max_le (max_le ?_ ?_) ?_
        · exact le_trans (le_max_left u _) (le_max_right lo _)
        · calc e ≤ max lo u := ham ▸ hea
            _ ≤ max lo (max u (max (w c) W)) :=
              max_le_max (le_refl lo) (le_max_left u _)
        · exact le_trans (le_trans (le_max_right (w c) W) (le_max_right u _))
            (le_max_right lo _)
      have hswap : max (max u e) W = max u (max e W) := max_assoc u e W
      refine ⟨fun hle => ?_, fun hge => ?_, fun hgt hlt => ?_⟩
      · have hVR := IH.1 hle
        have heR : e ≤ R :=
          le_trans (le_trans (le_max_right u e) (le_max_left _ W)) hVR
        have hea : e ≤ a := le_trans heR (le_trans hle hloa)
        have hwe : w c ≤ e := hTc.1 hea
        refine max_le ?_ (max_le ?_ ?_)
        · exact le_trans (le_trans (le_max_left u e) (le_max_left _ W)) hVR
        · exact le_trans hwe heR
        · exact le_trans (le_max_right _ W) hVR
      · have hRV' := IH.2.1 hge
        rcases le_or_lt e a with hea | hae
        · have hRlo : R ≤ max lo (max u (max (w c) W)) :=
            le_trans hRV' (hVle hea)
          rcases le_total (max u (max (w c) W)) lo with hvlo | hlov
          · rw [max_eq_left hvlo] at hRlo
            exact absurd hRlo (not_le.mpr (lt_of_lt_of_le hlohi hge))
          · rw [max_eq_right hlov] at hRlo
            exact hRlo
        · have hew : e = w c := hTc.2.2 hae hehi
          rw [hswap, hew] at hRV'
          exact hRV'
      · have hRV' := IH.2.2 hgt hlt
        rcases le_or_lt e a with hea | hae
        · have hwe : w c ≤ e := hTc.1 hea
          have h1 : max u (max (w c) W) ≤ max (max u e) W := by
            refine max_le ?_ (max_le ?_ ?_)
            · exact le_trans (le_max_left u e) (le_max_left _ W)
            · exact le_trans (hwe.trans (le_max_right u e)) (le_max_left _ W)
            · exact le_max_right _ W
          have h2 : max (max u e) W ≤ max lo (max u (max (w c) W)) := hVle hea
          have hle2 : max (max u e) W ≤ max u (max (w c) W) := by
            rcases le_total (max u (max (w c) W)) lo with hvlo | hlov
            · exfalso
              rw [max_eq_left hvlo] at h2
              exact absurd (hRV' ▸ hgt) (not_lt.mpr h2)
            · rw [max_eq_right hlov] at h2
              exact h2
          rw [hRV']
          exact le_antisymm hle2 h1
        · have hew : e = w c := hTc.2.2 hae hehi
          rw [hRV', hswap, hew]

lemma abMinGo_triple (f : HexBoard → EInt → EInt → EInt)
    (w : Int × Int → EInt) (b : HexBoard) (cur : Nat) :
    ∀ (cs : List (Int × Int)) (u bt lo hi : EInt), lo < bt → bt = min hi u →
      (∀ c ∈ cs, ∀ a' h' : EInt, a' < h' →
        ABTriple (f (makeMove b c.1 c.2 cur).2 a' h') (w c) a' h') →
      ABTriple (abMinGo f b cur cs u lo bt)
        (min u ((cs.map w).foldl min ⊤)) lo hi := by
  intro cs
  induction cs with
  | nil =>
    intro u bt lo hi _ _ _
    simpa [abMinGo, min_eq_left (le_top : u ≤ (⊤ : EInt))] using
      abTriple_refl u lo hi
  | cons c cs ih =>
    intro u bt lo hi hlobt hbm hcs
    have hTc : ABTriple (f (makeMove b c.1 c.2 cur).2 lo bt) (w c) lo bt :=
      hcs c (List.mem_cons_self c cs) lo bt hlobt
    set e := f (makeMove b c.1 c.2 cur).2 lo bt with he
    have hbthi : bt ≤ hi := hbm ▸ min_le_left hi u
    have hlohi : lo < hi := lt_of_lt_of_le hlobt hbthi
    have hV : min u (((c :: cs).map w).foldl min ⊤) =
        min u (min (w c) ((cs.map w).foldl min ⊤)) := by
      simp only [List.map_cons, List.foldl_cons]
      rw [foldl_min_init, min_eq_right (le_top : w c ≤ (⊤ : EInt))]
    rw [hV]
    set W := (cs.map w).foldl min ⊤ with hW
    show ABTriple
      (if min bt e ≤ lo then min u e
        else abMinGo f b cur cs (min u e) lo (min bt e))
      (min u (min (w c) W)) lo hi
    by_cases hbr : min bt e ≤ lo
    · rw [if_pos hbr]
      have hel : e ≤ lo := by
        rcases min_le_iff.mp hbr with h | h
        · exact absurd h (not_le.mpr hlobt)
        · exact h
      have hwe : w c ≤ e := hTc.1 hel
      refine ⟨fun _ => ?_, fun hge => ?_, fun hgt _ => ?_⟩
      · exact le_min (min_le_left _ _)
          (le_trans (le_trans (min_le_right _ _) (min_le_left _ _)) hwe)
      · have h3 : hi ≤ lo := le_trans hge (le_trans (min_le_right u e) hel)
        exact absurd (lt_of_le_of_lt h3 hlohi) (lt_irrefl hi)
      · exact absurd hgt
          (not_lt.mpr (le_trans (min_le_right u e) hel))
    · rw [if_neg hbr]
      have hbr' : lo < min bt e := not_le.mp hbr
      have helo : lo < e := lt_of_lt_of_le hbr' (min_le_right bt e)
      have hbm' : min bt e = min hi (min u e) := by
        rw [hbm, min_assoc, min_comm u e, ← min_assoc, min_assoc hi e u,
          min_comm e u, ← min_assoc, min_assoc]
      have IH := ih (min u e) (min bt e) lo hi hbr' hbm'
        (fun c' hc' => hcs c' (List.mem_cons_of_mem c hc'))
      set R := abMinGo f b cur cs (min u e) lo (min bt e) with hR
      have hVge : bt ≤ e → min hi (min u (min (w c) W)) ≤ min (min u e) W := by
        intro hbe
        refine le_min (le_min ?_ ?_) ?_
        · exact le_trans (min_le_right hi _) (min_le_left u _)
        · calc min hi (min u (min (w c) W)) ≤ min hi u :=
              min_le_min (le_refl hi) (min_le_left u _)
            _ ≤ e := hbm ▸ hbe
        · exact le_trans (min_le_right hi _)
            (le_trans (min_le_right u _) (min_le_right (w c) W))
      have hswap : min (min u e) W = min u (min e W) := min_assoc u e W
      refine ⟨fun hle => ?_, fun hge => ?_, fun hgt hlt => ?_⟩
      · have hV'R := IH.1 hle
        rcases le_or_lt bt e with hbe | heb
        · have hRge : min hi (min u (min (w c) W)) ≤ R :=
            le_trans (hVge hbe) hV'R
          rcases le_total hi (min u (min (w c) W)) with hhiv | hvhi
          · rw [min_eq_left hhiv] at hRge
            exact absurd (lt_of_le_of_lt (le_trans hRge hle) hlohi)
              (lt_irrefl hi)
          · rw [min_eq_right hvhi] at hRge
            exact hRge
        · have hew : e = w c := hTc.2.2 helo heb
          rw [hswap, hew] at hV'R
          exact hV'R
      · have hRV' := IH.2.1 hge
        have hRe : R ≤ e :=
          le_trans hRV' (le_trans (min_le_left _ W) (min_le_right u e))
        have hbe : bt ≤ e := le_trans (le_trans hbthi hge) hRe
        have hew : e ≤ w c := hTc.2.1 hbe
        refine le_min ?_ (le_min ?_ ?_)
        · exact le_trans hRV' (le_trans (min_le_left _ W) (min_le_left u e))
        · exact le_trans hRe hew
        · exact le_trans hRV' (min_le_right _ W)
      · have hRV' := IH.2.2 hgt hlt
        rcases le_or_lt bt e with hbe | heb
        · have hew : e ≤ w c := hTc.2.1 hbe
          have h1 : min (min u e) W ≤ min u (min (w c) W) := by
            refine le_min ?_ (le_min ?_ ?_)
            · exact le_trans (min_le_left _ W) (min_le_left u e)
            · exact le_trans (min_le_left _ W)
                (le_trans (min_le_right u e) hew)
            · exact min_le_right _ W
          have h2 : min hi (min u (min (w c) W)) ≤ min (min u e) W :=
            hVge hbe
          have hge2 : min u (min (w c) W) ≤ min (min u e) W := by
            rcases le_total hi (min u (min (w c) W)) with hhiv | hvhi
            · exfalso
              rw [min_eq_left hhiv] at h2
              exact absurd (hRV' ▸ hlt) (not_lt.mpr h2)
            · rw [min_eq_right hvhi] at h2
              exact h2
          rw [hRV']
          exact le_antisymm h1 hge2
        · have hew : e = w c := hTc.2.2 helo heb
          rw [hRV', hswap, hew]

lemma minimax_triple (p : Nat) :
    ∀ (depth : Nat) (b : HexBoard) (isMax : Bool) (lo hi : EInt), lo < hi →
      ABTriple (minimax p depth b isMax lo hi)
        (minimaxPlain p depth b isMax) lo hi := by
  intro depth
  induction depth with
  | zero => intro b isMax lo hi _; exact abTriple_refl _ _ _
  | succ d ih =>
    intro b isMax lo hi hlohi
    by_cases ht : (evaluatePosition p b).2
    · simp only [minimax, minimaxPlain, ht, if_true]
      exact abTriple_refl _ _ _
    · cases isMax with
      | true =>
        have h := abMaxGo_triple
          (fun b' a' b'' => minimax p d b' false a' b'')
          (fun c => minimaxPlain p d (makeMove b c.1 c.2 p).2 false) b p
          (getEmptyCells b) ⊥ lo lo hi hlohi
          (max_eq_left bot_le).symm
          (fun c _ a' h' hah => ih (makeMove b c.1 c.2 p).2 false a' h' hah)
        simp only [minimax, minimaxPlain, ht, if_false, Bool.false_eq_true,
          if_true]
        simpa [max_eq_right (bot_le :
          (⊥ : EInt) ≤ (((getEmptyCells b).map _).foldl max ⊥))] using h
      | false =>
        have h := abMinGo_triple
          (fun b' a' b'' => minimax p d b' true a' b'')
          (fun c => minimaxPlain p d (makeMove b c.1 c.2 (oppOf p)).2 true)
          b (oppOf p) (getEmptyCells b) ⊤ hi lo hi hlohi
          (min_eq_left le_top).symm
          (fun c _ a' h' hah =>
            ih (makeMove b c.1 c.2 (oppOf p)).2 true a' h' hah)
        simp only [minimax, minimaxPlain, ht, if_false, Bool.false_eq_true,
          if_true]
        simpa [min_eq_right (le_top :
          (((getEmptyCells b).map _).foldl min ⊤) ≤ (⊤ : EInt))] using h

lemma minimax_eq_plain (p d : Nat) (b : HexBoard) (m : Bool) :
    minimax p d b m ⊥ ⊤ = minimaxPlain p d b m := by
  have h := minimax_triple p d b m ⊥ ⊤ bot_lt_top
  rcases le_or_lt (minimax p d b m ⊥ ⊤) ⊥ with h1 | h1
  · have hu : minimax p d b m ⊥ ⊤ = ⊥ := le_bot_iff.mp h1
    have hv : minimaxPlain p d b m = ⊥ := le_bot_iff.mp (hu ▸ h.1 h1)
    rw [hu, hv]
  · rcases le_or_lt ⊤ (minimax p d b m ⊥ ⊤) with h2 | h2
    · have hu : minimax p d b m ⊥ ⊤ = ⊤ := top_le_iff.mp h2
      have hv : minimaxPlain p d b m = ⊤ := top_le_iff.mp (hu ▸ h.2.1 h2)
      rw [hu, hv]
    · exact h.2.2 h1 h2

lemma bestMoveGo_congr (f g : Int × Int → EInt) :
    ∀ (cs : List (Int × Int)), (∀ c ∈ cs, f c = g c) →
      ∀ (bs : EInt) (bm : Option (Int × Int)),
        bestMoveGo f cs bs bm = bestMoveGo g cs bs bm := by
  intro cs
  induction cs with
  | nil => intro _ bs bm; rfl
  | cons c cs ih =>
    intro h bs bm
    simp only [bestMoveGo]
    rw [h c (List.mem_cons_self c cs)]
    split
    · exact ih (fun c' hc' => h c' (List.mem_cons_of_mem c hc')) _ _
    · exact ih (fun c' hc' => h c' (List.mem_cons_of_mem c hc')) _ _

/-- **C1.** Pruning equivalence: for any board, searching side, and
random fallback draw, the move returned by the alpha-beta-pruned search
(`AIPlayer.makeMinimaxMove`) equals the move returned by the unpruned
exhaustive minimax of the same depth with the same first-seen tie-break
over the same empty-cell enumeration order. -/
theorem pruning_equivalence (p : Nat) (b : HexBoard) (rand : Nat) :
    makeMinimaxMove p b rand = makeMinimaxMovePlain p b rand := by
  unfold makeMinimaxMove makeMinimaxMovePlain
  by_cases hemp : getEmptyCells b = []
  · rw [if_pos hemp, if_pos hemp]
  · rw [if_neg hemp, if_neg hemp,
      bestMoveGo_congr _ _ (getEmptyCells b)
        (fun c _ => minimax_eq_plain p _ _ _) ⊥ none]

/-- Witness for `neighbor_counts_amended`: the four classes on the
concrete 3×3 board. -/
theorem neighbor_counts_amended_witness :
    (getNeighbors (freshBoard 3 Shape.hexagon) 0 0).length = 2 ∧
    (getNeighbors (freshBoard 3 Shape.hexagon) 0 2).length = 3 ∧
    (getNeighbors (freshBoard 3 Shape.hexagon) 0 1).length = 4 ∧
    (getNeighbors (freshBoard 3 Shape.hexagon) 1 1).length = 6 := by
  refine ⟨?_, ?_, ?_, ?_⟩
  · rw [neighbor_counts_amended (freshBoard 3 Shape.hexagon) rfl (by decide)
      0 0 (by decide)]
    decide
  · rw [neighbor_counts_amended (freshBoard 3 Shape.hexagon) rfl (by decide)
      0 2 (by decide)]
    decide
  · rw [neighbor_counts_amended (freshBoard 3 Shape.hexagon) rfl (by decide)
      0 1 (by decide)]
    decide
  · rw [neighbor_counts_amended (freshBoard 3 Shape.hexagon) rfl (by decide)
      1 1 (by decide)]
    decide

/-! ## Grid counting and congruence lemmas -/

lemma mem_rasterCoords (b : HexBoard) (q : Int × Int) :
    q ∈ rasterCoords b ↔
      0 ≤ q.1 ∧ q.1 < (b.size : Int) ∧ 0 ≤ q.2 ∧ q.2 < (b.size : Int) := by
  unfold rasterCoords
  simp only [List.mem_flatMap, List.mem_map, List.mem_range]
  constructor
  · rintro ⟨r, hr, ⟨c, hc, rfl⟩⟩
    refine ⟨?_, ?_, ?_, ?_⟩ <;> simp <;> omega
  · rcases q with ⟨x, y⟩
    rintro ⟨h1, h2, h3, h4⟩
    simp only at h1 h2 h3 h4
    refine ⟨x.toNat, by omega, y.toNat, by omega, ?_⟩
    simp only [Prod.mk.injEq]
    exact ⟨Int.toNat_of_nonneg h1, Int.toNat_of_nonneg h3⟩

lemma isValid_bounds {b : HexBoard} {r c : Int}
    (h : isValidPosition b r c = true) :
    0 ≤ r ∧ r < (b.size : Int) ∧ 0 ≤ c ∧ c < (b.size : Int) := by
  unfold isValidPosition at h
  split at h
  · simp at h
  · rename_i hcond
    push_neg at hcond
    exact ⟨hcond.1, hcond.2.1, hcond.2.2.1, hcond.2.2.2⟩

lemma mem_validCells (b : HexBoard) (q : Int × Int) :
    q ∈ validCells b ↔ isValidPosition b q.1 q.2 = true := by
  unfold validCells
  rw [List.mem_filter]
  exact ⟨fun h => h.2, fun h => ⟨(mem_rasterCoords b q).mpr (isValid_bounds h), h⟩⟩

lemma countP_lt_of_mem {α : Type} {l : List α} {p q : α → Bool}
    (hmono : ∀ a ∈ l, p a = true → q a = true) {a : α} (ha : a ∈ l)
    (hqa : q a = true) (hpa : p a = false) :
    l.countP p < l.countP q := by
  induction l with
  | nil => cases ha
  | cons x xs ih =>
    rw [List.countP_cons, List.countP_cons]
    rcases List.mem_cons.mp ha with rfl | ha'
    · have h1 : xs.countP p ≤ xs.countP q :=
        List.countP_mono_left fun a h hp => hmono a (List.mem_cons_of_mem _ h) hp
      simp only [hpa, hqa, if_true, if_false, Bool.false_eq_true]
      omega
    · have h2 := ih (fun a h hp => hmono a (List.mem_cons_of_mem _ h) hp) ha'
      have hx : (if p x = true then 1 else 0) ≤ (if q x = true then 1 else 0) := by
        by_cases hp : p x = true
        · simp [hp, hmono x (List.mem_cons_self _ _) hp]
        · simp [hp]
      omega

lemma unvisitedCount_le_of_subset (b : HexBoard) {V W : List (Int × Int)}
    (h : V ⊆ W) : unvisitedCount b W ≤ unvisitedCount b V := by
  unfold unvisitedCount
  rw [← List.countP_eq_length_filter, ← List.countP_eq_length_filter]
  refine List.countP_mono_left fun a _ hp => ?_
  rw [decide_eq_true_eq] at hp ⊢
  exact fun hin => hp (h hin)

lemma unvisitedCount_cons_lt (b : HexBoard) {c : Int × Int}
    {V : List (Int × Int)} (hv : isValidPosition b c.1 c.2 = true)
    (hc : c ∉ V) : unvisitedCount b (c :: V) < unvisitedCount b V := by
  unfold unvisitedCount
  rw [← List.countP_eq_length_filter, ← List.countP_eq_length_filter]
  refine countP_lt_of_mem (fun a _ hp => ?_)
    ((mem_validCells b c).mpr hv) (by simpa using hc) (by simp)
  rw [decide_eq_true_eq] at hp ⊢
  exact fun hin => hp (List.mem_cons_of_mem _ hin)

lemma rasterCoords_length (b : HexBoard) :
    (rasterCoords b).length = b.size * b.size := by
  unfold rasterCoords
  have key : ∀ n : Nat,
      ((List.range n).flatMap fun r =>
        (List.range b.size).map fun c => (Int.ofNat r, Int.ofNat c)).length
      = n * b.size := by
    intro n
    induction n with
    | zero => simp
    | succ k ih =>
      rw [List.range_succ, List.flatMap_append, List.length_append, ih]
      simp [Nat.succ_mul]
  exact key b.size

lemma unvisitedCount_lt_dfsFuel (b : HexBoard) (V : List (Int × Int)) :
    unvisitedCount b V < dfsFuel b := by
  unfold unvisitedCount dfsFuel
  have h1 := List.length_filter_le
    (fun q => decide (q ∉ V)) (validCells b)
  have h2 := List.length_filter_le
    (fun q => isValidPosition b q.1 q.2) (rasterCoords b)
  have h3 := rasterCoords_length b
  unfold validCells at h1 h2 ⊢
  omega

lemma mem_getNeighbors_valid {b : HexBoard} {r c : Int} {v : Int × Int}
    (h : v ∈ getNeighbors b r c) : isValidPosition b v.1 v.2 = true := by
  unfold getNeighbors at h
  rw [List.mem_filter] at h
  have := h.2
  rwa [getCell_isSome] at this

lemma ownedBy_iff (b : HexBoard) (q : Int × Int) (p : Nat) :
    ownedBy b q p = true ↔ getCell b q.1 q.2 = some (some p) := by
  simp [ownedBy]

lemma ownedBy_valid {b : HexBoard} {q : Int × Int} {p : Nat}
    (h : ownedBy b q p = true) : isValidPosition b q.1 q.2 = true :=
  getCell_valid ((ownedBy_iff b q p).mp h)

lemma isValid_congr {b b' : HexBoard} (hsz : b'.size = b.size)
    (hsh : b'.shape = b.shape) (r c : Int) :
    isValidPosition b' r c = isValidPosition b r c := by
  unfold isValidPosition isCellValidForShape
  rw [hsz, hsh]

lemma getNeighbors_congr {b b' : HexBoard} (hsz : b'.size = b.size)
    (hsh : b'.shape = b.shape) (r c : Int) :
    getNeighbors b' r c = getNeighbors b r c := by
  unfold getNeighbors
  refine List.filter_congr fun q _ => ?_
  rw [getCell_isSome, getCell_isSome, isValid_congr hsz hsh]

/-! ## Correctness of the player-1 DFS (`dfsVertical`) -/

lemma dfsLoop_subset {b : HexBoard} {p : Nat}
    {step : Int × Int → List (Int × Int) → Bool × List (Int × Int)}
    (hstep : ∀ n W, W ⊆ (step n W).2) :
    ∀ (ns : List (Int × Int)) (V : List (Int × Int)),
      V ⊆ (dfsLoop b p step ns V).2 := by
  intro ns
  induction ns with
  | nil => intro V; exact fun x hx => hx
  | cons n ns ih =>
    intro V
    simp only [dfsLoop]
    by_cases hcond : ownedBy b n p = true ∧ n ∉ V
    · rw [if_pos hcond]
      rcases hst : step n V with ⟨res, W⟩
      have hVW : V ⊆ W := by
        have := hstep n V; rwa [hst] at this
      cases res
      · exact hVW.trans (ih W)
      · exact hVW
    · rw [if_neg hcond]
      exact ih V

lemma dfsV_subset (b : HexBoard) :
    ∀ (fuel : Nat) (c : Int × Int) (V : List (Int × Int)),
      V ⊆ (dfsVertical b fuel c V).2 := by
  intro fuel
  induction fuel with
  | zero => intro c V; exact fun x hx => hx
  | succ f ih =>
    intro c V
    simp only [dfsVertical]
    by_cases h1 : c ∈ V
    · rw [if_pos h1]; exact fun x hx => hx
    · rw [if_neg h1]
      by_cases h2 : ¬ isValidPosition b c.1 c.2 = true
      · rw [if_pos h2]; exact fun x hx => hx
      · rw [if_neg h2]
        by_cases h3 : c.1 = (b.size : Int) - 1
        · rw [if_pos h3]
          exact fun x hx => List.mem_cons_of_mem c hx
        · rw [if_neg h3]
          exact List.Subset.trans (fun x hx => List.mem_cons_of_mem c hx)
            (dfsLoop_subset (fun n W => ih n W) _ _)

lemma dfsLoop_sound {b : HexBoard} {p : Nat}
    {step : Int × Int → List (Int × Int) → Bool × List (Int × Int)}
    {P : Int × Int → Prop}
    (hsound : ∀ n W, (step n W).1 = true → P n) :
    ∀ (ns : List (Int × Int)) (V : List (Int × Int)),
      (dfsLoop b p step ns V).1 = true →
      ∃ n ∈ ns, ownedBy b n p = true ∧ P n := by
  intro ns
  induction ns with
  | nil => intro V h; exact absurd h (by simp [dfsLoop])
  | cons n ns ih =>
    intro V h
    simp only [dfsLoop] at h
    by_cases hcond : ownedBy b n p = true ∧ n ∉ V
    · rw [if_pos hcond] at h
      rcases hst : step n V with ⟨res, W⟩
      rw [hst] at h
      cases res
      · obtain ⟨m, hm, hom, hPm⟩ := ih W h
        exact ⟨m, List.mem_cons_of_mem n hm, hom, hPm⟩
      · exact ⟨n, List.mem_cons_self n ns, hcond.1,
          hsound n V (by rw [hst])⟩
    · rw [if_neg hcond] at h
      obtain ⟨m, hm, hom, hPm⟩ := ih V h
      exact ⟨m, List.mem_cons_of_mem n hm, hom, hPm⟩

lemma dfsV_sound (b : HexBoard) :
    ∀ (fuel : Nat) (c : Int × Int) (V : List (Int × Int)),
      (dfsVertical b fuel c V).1 = true →
      ∃ t, ReachV b c t ∧ t.1 = (b.size : Int) - 1 := by
  intro fuel
  induction fuel with
  | zero => intro c V h; exact absurd h (by simp [dfsVertical])
  | succ f ih =>
    intro c V h
    simp only [dfsVertical] at h
    by_cases h1 : c ∈ V
    · rw [if_pos h1] at h; exact absurd h (by simp)
    · rw [if_neg h1] at h
      by_cases h2 : ¬ isValidPosition b c.1 c.2 = true
      · rw [if_pos h2] at h; exact absurd h (by simp)
      · rw [if_neg h2] at h
        by_cases h3 : c.1 = (b.size : Int) - 1
        · exact ⟨c, Relation.ReflTransGen.refl, h3⟩
        · rw [if_neg h3] at h
          obtain ⟨n, hn, hon, t, hreach, ht⟩ :=
            dfsLoop_sound (fun n W hw => ih n W hw) _ _ h
          exact ⟨t, Relation.ReflTransGen.head ⟨hn, hon⟩ hreach, ht⟩

lemma checkVGo_sound (b : HexBoard) :
    ∀ (cols : List Int) (V : List (Int × Int)),
      checkVerticalGo b cols V = true → winPathV b := by
  intro cols
  induction cols with
  | nil => intro V h; exact absurd h (by simp [checkVerticalGo])
  | cons col cols ih =>
    intro V h
    simp only [checkVerticalGo] at h
    by_cases ho : ownedBy b (0, col) 1 = true
    · rw [if_pos ho] at h
      rcases hd : dfsVertical b (dfsFuel b) (0, col) V with ⟨res, V'⟩
      rw [hd] at h
      cases res
      · exact ih V' h
      · obtain ⟨t, hreach, ht⟩ := dfsV_sound b _ _ _ (by rw [hd])
        exact ⟨(0, col), t, rfl, ho, hreach, ht⟩
    · rw [if_neg ho] at h
      exact ih V h

lemma dfsLoop_falseV {b : HexBoard}
    {step : Int × Int → List (Int × Int) → Bool × List (Int × Int)}
    {k : Nat}
    (hfalse : ∀ (n : Int × Int) (W : List (Int × Int)),
      unvisitedCount b W ≤ k → ∀ W', step n W = (false, W') →
        W ⊆ W' ∧ (isValidPosition b n.1 n.2 = true → n ∈ W') ∧
          NewClosedV b W W') :
    ∀ (ns : List (Int × Int)) (V V' : List (Int × Int)),
      unvisitedCount b V ≤ k →
      (∀ n ∈ ns, isValidPosition b n.1 n.2 = true) →
      dfsLoop b 1 step ns V = (false, V') →
      V ⊆ V' ∧ (∀ n ∈ ns, ownedBy b n 1 = true → n ∈ V') ∧
        NewClosedV b V V' := by
  intro ns
  induction ns with
  | nil =>
    intro V V' hU _ heq
    have hVV : V = V' := congrArg Prod.snd heq
    subst hVV
    exact ⟨fun x hx => hx, fun n hn => absurd hn (List.not_mem_nil n),
      fun z _ hz' => absurd (by assumption) hz'⟩
  | cons n ns ih =>
    intro V V' hU hvalid heq
    simp only [dfsLoop] at heq
    by_cases hcond : ownedBy b n 1 = true ∧ n ∉ V
    · rw [if_pos hcond] at heq
      rcases hst : step n V with ⟨res, W⟩
      rw [hst] at heq
      cases res
      · have h1 := hfalse n V hU W hst
        have hUW : unvisitedCount b W ≤ k :=
          le_trans (unvisitedCount_le_of_subset b h1.1) hU
        have h2 := ih W V' hUW
          (fun m hm => hvalid m (List.mem_cons_of_mem n hm)) heq
        refine ⟨h1.1.trans h2.1, ?_, ?_⟩
        · intro m hm hom
          rcases List.mem_cons.mp hm with rfl | hm'
          · exact h2.1 (h1.2.1 (hvalid m (List.mem_cons_self m ns)))
          · exact h2.2.1 m hm' hom
        · intro z hz hzV
          by_cases hzW : z ∈ W
          · obtain ⟨hg, hcl⟩ := h1.2.2 z hzW hzV
            exact ⟨hg, fun nb hnb honb => h2.1 (hcl nb hnb honb)⟩
          · exact h2.2.2 z hz hzW
      · have hcontra : ((true : Bool), W) = ((false : Bool), V') := heq
        exact absurd (congrArg Prod.fst hcontra) (by simp)
    · rw [if_neg hcond] at heq
      have h2 := ih V V' hU
        (fun m hm => hvalid m (List.mem_cons_of_mem n hm)) heq
      refine ⟨h2.1, ?_, h2.2.2⟩
      intro m hm hom
      rcases List.mem_cons.mp hm with rfl | hm'
      · have hmV : m ∈ V := by
          by_contra hmV
          exact hcond ⟨hom, hmV⟩
        exact h2.1 hmV
      · exact h2.2.1 m hm' hom

lemma dfsV_false (b : HexBoard) :
    ∀ (fuel : Nat) (c : Int × Int) (V V' : List (Int × Int)),
      unvisitedCount b V < fuel →
      dfsVertical b fuel c V = (false, V') →
      V ⊆ V' ∧ (isValidPosition b c.1 c.2 = true → c ∈ V') ∧
        NewClosedV b V V' := by
  intro fuel
  induction fuel with
  | zero => intro c V V' hU _; omega
  | succ f ih =>
    intro c V V' hU heq
    simp only [dfsVertical] at heq
    by_cases h1 : c ∈ V
    · rw [if_pos h1] at heq
      have hVV : V = V' := congrArg Prod.snd heq
      subst hVV
      exact ⟨fun x hx => hx, fun _ => h1,
        fun z _ hz' => absurd (by assumption) hz'⟩
    · rw [if_neg h1] at heq
      by_cases h2 : ¬ isValidPosition b c.1 c.2 = true
      · rw [if_pos h2] at heq
        have hVV : V = V' := congrArg Prod.snd heq
        subst hVV
        exact ⟨fun x hx => hx, fun hv => absurd hv h2,
          fun z _ hz' => absurd (by assumption) hz'⟩
      · rw [if_neg h2] at heq
        push_neg at h2
        by_cases h3 : c.1 = (b.size : Int) - 1
        · rw [if_pos h3] at heq
          have hcontra : ((true : Bool), c :: V) = ((false : Bool), V') := heq
          exact absurd (congrArg Prod.fst hcontra) (by simp)
        · rw [if_neg h3] at heq
          have hlt := unvisitedCount_cons_lt b h2 h1
          have hfalse : ∀ (n : Int × Int) (W : List (Int × Int)),
              unvisitedCount b W ≤ unvisitedCount b (c :: V) →
              ∀ W', dfsVertical b f n W = (false, W') →
                W ⊆ W' ∧ (isValidPosition b n.1 n.2 = true → n ∈ W') ∧
                  NewClosedV b W W' := by
            intro n W hW W' hstep
            exact ih n W W' (by omega) hstep
          have hloop := dfsLoop_falseV hfalse (getNeighbors b c.1 c.2)
            (c :: V) V' (le_refl _) (fun n hn => mem_getNeighbors_valid hn)
            heq
          refine ⟨?_, fun _ => hloop.1 (List.mem_cons_self c V), ?_⟩
          · exact List.Subset.trans (fun x hx => List.mem_cons_of_mem c hx)
              hloop.1
          · intro z hz hzV
            by_cases hzc : z = c
            · subst hzc
              exact ⟨h3, fun nb hnb honb => hloop.2.1 nb hnb honb⟩
            · refine hloop.2.2 z hz ?_
              intro hmem
              rcases List.mem_cons.mp hmem with h | h
              · exact hzc h
              · exact hzV h

lemma closedNGV_step {b : HexBoard} {fuel : Nat} {c : Int × Int}
    {V V' : List (Int × Int)} (hU : unvisitedCount b V < fuel)
    (hC : ClosedNGV b V)
    (heq : dfsVertical b fuel c V = (false, V')) : ClosedNGV b V' := by
  obtain ⟨hsub, _, hnew⟩ := dfsV_false b fuel c V V' hU heq
  intro z hz
  by_cases hzV : z ∈ V
  · obtain ⟨hg, hcl⟩ := hC z hzV
    exact ⟨hg, fun n hn hon => hsub (hcl n hn hon)⟩
  · exact hnew z hz hzV

lemma reach_in_closedV {b : HexBoard} {V : List (Int × Int)}
    (hC : ClosedNGV b V) {s t : Int × Int} (hs : s ∈ V)
    (h : ReachV b s t) : t ∈ V ∧ t.1 ≠ (b.size : Int) - 1 := by
  induction h with
  | refl => exact ⟨hs, (hC s hs).1⟩
  | tail _ hbc ih =>
    have hin := (hC _ ih.1).2 _ hbc.1 hbc.2
    exact ⟨hin, (hC _ hin).1⟩

lemma checkVGo_false (b : HexBoard) :
    ∀ (cols : List Int) (V : List (Int × Int)), ClosedNGV b V →
      checkVerticalGo b cols V = false →
      ∀ col ∈ cols, ownedBy b (0, col) 1 = true →
      ∀ t, ReachV b (0, col) t → t.1 ≠ (b.size : Int) - 1 := by
  intro cols
  induction cols with
  | nil => intro V _ _ col hcol; exact absurd hcol (List.not_mem_nil col)
  | cons col cols ih =>
    intro V hC heq col' hcol' ho t hreach
    simp only [checkVerticalGo] at heq
    by_cases hoc : ownedBy b (0, col) 1 = true
    · rw [if_pos hoc] at heq
      rcases hd : dfsVertical b (dfsFuel b) (0, col) V with ⟨res, V'⟩
      rw [hd] at heq
      cases res
      · have hU := unvisitedCount_lt_dfsFuel b V
        have hC' := closedNGV_step hU hC hd
        rcases List.mem_cons.mp hcol' with rfl | hcol''
        · have hin : ((0 : Int), col') ∈ V' :=
            (dfsV_false b _ _ _ _ hU hd).2.1 (ownedBy_valid ho)
          exact (reach_in_closedV hC' hin hreach).2
        · exact ih V' hC' heq col' hcol'' ho t hreach
      · exact absurd (show (true : Bool) = false from heq) (by simp)
    · rw [if_neg hoc] at heq
      rcases List.mem_cons.mp hcol' with rfl | hcol''
      · exact absurd ho hoc
      · exact ih V hC heq col' hcol'' ho t hreach

/-- What `checkVerticalConnection` decides: player 1 has a chain of own
cells from the top row to the bottom row. -/
lemma checkVertical_iff (b : HexBoard) :
    checkVerticalConnection b = true ↔ winPathV b := by
  constructor
  · exact checkVGo_sound b _ []
  · intro hw
    by_contra hfalse
    have hne : checkVerticalConnection b = false :=
      (Bool.not_eq_true _).mp hfalse
    obtain ⟨s, t, hs0, hso, hreach, ht⟩ := hw
    have hbounds := isValid_bounds (ownedBy_valid hso)
    have hcol : s.2 ∈ (List.range b.size).map Int.ofNat := by
      rw [List.mem_map]
      exact ⟨s.2.toNat, List.mem_range.mpr (by omega),
        Int.toNat_of_nonneg (by omega)⟩
    have hs_eq : s = (0, s.2) := by
      rcases s with ⟨a, d⟩
      simp only at hs0
      simp [hs0]
    rw [hs_eq] at hso hreach
    exact checkVGo_false b _ [] (fun z hz => absurd hz (List.not_mem_nil z))
      hne s.2 hcol hso t hreach ht

/-! ## Correctness of the player-2 DFS (`dfsHorizontal`) -/

lemma dfsH_sound (b : HexBoard) :
    ∀ (fuel : Nat) (c : Int × Int) (V : List (Int × Int)),
      (dfsHorizontal b fuel c V).1 = true →
      ∃ t, ReachH b c t ∧ t.2 = (b.size : Int) - 1 := by
  intro fuel
  induction fuel with
  | zero => intro c V h; exact absurd h (by simp [dfsHorizontal])
  | succ f ih =>
    intro c V h
    simp only [dfsHorizontal] at h
    by_cases h1 : c ∈ V
    · rw [if_pos h1] at h; exact absurd h (by simp)
    · rw [if_neg h1] at h
      by_cases h2 : ¬ isValidPosition b c.1 c.2 = true
      · rw [if_pos h2] at h; exact absurd h (by simp)
      · rw [if_neg h2] at h
        by_cases h3 : c.2 = (b.size : Int) - 1
        · exact ⟨c, Relation.ReflTransGen.refl, h3⟩
        · rw [if_neg h3] at h
          obtain ⟨n, hn, hon, t, hreach, ht⟩ :=
            dfsLoop_sound (fun n W hw => ih n W hw) _ _ h
          exact ⟨t, Relation.ReflTransGen.head ⟨hn, hon⟩ hreach, ht⟩

lemma checkHGo_sound (b : HexBoard) :
    ∀ (rows : List Int) (V : List (Int × Int)),
      checkHorizontalGo b rows V = true → winPathH b := by
  intro rows
  induction rows with
  | nil => intro V h; exact absurd h (by simp [checkHorizontalGo])
  | cons row rows ih =>
    intro V h
    simp only [checkHorizontalGo] at h
    by_cases ho : ownedBy b (row, 0) 2 = true
    · rw [if_pos ho] at h
      rcases hd : dfsHorizontal b (dfsFuel b) (row, 0) V with ⟨res, V'⟩
      rw [hd] at h
      cases res
      · exact ih V' h
      · obtain ⟨t, hreach, ht⟩ := dfsH_sound b _ _ _ (by rw [hd])
        exact ⟨(row, 0), t, rfl, ho, hreach, ht⟩
    · rw [if_neg ho] at h
      exact ih V h

lemma dfsLoop_falseH {b : HexBoard}
    {step : Int × Int → List (Int × Int) → Bool × List (Int × Int)}
    {k : Nat}
    (hfalse : ∀ (n : Int × Int) (W : List (Int × Int)),
      unvisitedCount b W ≤ k → ∀ W', step n W = (false, W') →
        W ⊆ W' ∧ (isValidPosition b n.1 n.2 = true → n ∈ W') ∧
          NewClosedH b W W') :
    ∀ (ns : List (Int × Int)) (V V' : List (Int × Int)),
      unvisitedCount b V ≤ k →
      (∀ n ∈ ns, isValidPosition b n.1 n.2 = true) →
      dfsLoop b 2 step ns V = (false, V') →
      V ⊆ V' ∧ (∀ n ∈ ns, ownedBy b n 2 = true → n ∈ V') ∧
        NewClosedH b V V' := by
  intro ns
  induction ns with
  | nil =>
    intro V V' hU _ heq
    have hVV : V = V' := congrArg Prod.snd heq
    subst hVV
    exact ⟨fun x hx => hx, fun n hn => absurd hn (List.not_mem_nil n),
      fun z _ hz' => absurd (by assumption) hz'⟩
  | cons n ns ih =>
    intro V V' hU hvalid heq
    simp only [dfsLoop] at heq
    by_cases hcond : ownedBy b n 2 = true ∧ n ∉ V
    · rw [if_pos hcond] at heq
      rcases hst : step n V with ⟨res, W⟩
      rw [hst] at heq
      cases res
      · have h1 := hfalse n V hU W hst
        have hUW : unvisitedCount b W ≤ k :=
          le_trans (unvisitedCount_le_of_subset b h1.1) hU
        have h2 := ih W V' hUW
          (fun m hm => hvalid m (List.mem_cons_of_mem n hm)) heq
        refine ⟨h1.1.trans h2.1, ?_, ?_⟩
        · intro m hm hom
          rcases List.mem_cons.mp hm with rfl | hm'
          · exact h2.1 (h1.2.1 (hvalid m (List.mem_cons_self m ns)))
          · exact h2.2.1 m hm' hom
        · intro z hz hzV
          by_cases hzW : z ∈ W
          · obtain ⟨hg, hcl⟩ := h1.2.2 z hzW hzV
            exact ⟨hg, fun nb hnb honb => h2.1 (hcl nb hnb honb)⟩
          · exact h2.2.2 z hz hzW
      · have hcontra : ((true : Bool), W) = ((false : Bool), V') := heq
        exact absurd (congrArg Prod.fst hcontra) (by simp)
    · rw [if_neg hcond] at heq
      have h2 := ih V V' hU
        (fun m hm => hvalid m (List.mem_cons_of_mem n hm)) heq
      refine ⟨h2.1, ?_, h2.2.2⟩
      intro m hm hom
      rcases List.mem_cons.mp hm with rfl | hm'
      · have hmV : m ∈ V := by
          by_contra hmV
          exact hcond ⟨hom, hmV⟩
        exact h2.1 hmV
      · exact h2.2.1 m hm' hom

lemma dfsH_false (b : HexBoard) :
    ∀ (fuel : Nat) (c : Int × Int) (V V' : List (Int × Int)),
      unvisitedCount b V < fuel →
      dfsHorizontal b fuel c V = (false, V') →
      V ⊆ V' ∧ (isValidPosition b c.1 c.2 = true → c ∈ V') ∧
        NewClosedH b V V' := by
  intro fuel
  induction fuel with
  | zero => intro c V V' hU _; omega
  | succ f ih =>
    intro c V V' hU heq
    simp only [dfsHorizontal] at heq
    by_cases h1 : c ∈ V
    · rw [if_pos h1] at heq
      have hVV : V = V' := congrArg Prod.snd heq
      subst hVV
      exact ⟨fun x hx => hx, fun _ => h1,
        fun z _ hz' => absurd (by assumption) hz'⟩
    · rw [if_neg h1] at heq
      by_cases h2 : ¬ isValidPosition b c.1 c.2 = true
      · rw [if_pos h2] at heq
        have hVV : V = V' := congrArg Prod.snd heq
        subst hVV
        exact ⟨fun x hx => hx, fun hv => absurd hv h2,
          fun z _ hz' => absurd (by assumption) hz'⟩
      · rw [if_neg h2] at heq
        push_neg at h2
        by_cases h3 : c.2 = (b.size : Int) - 1
        · rw [if_pos h3] at heq
          have hcontra : ((true : Bool), c :: V) = ((false : Bool), V') := heq
          exact absurd (congrArg Prod.fst hcontra) (by simp)
        · rw [if_neg h3] at heq
          have hlt := unvisitedCount_cons_lt b h2 h1
          have hfalse : ∀ (n : Int × Int) (W : List (Int × Int)),
              unvisitedCount b W ≤ unvisitedCount b (c :: V) →
              ∀ W', dfsHorizontal b f n W = (false, W') →
                W ⊆ W' ∧ (isValidPosition b n.1 n.2 = true → n ∈ W') ∧
                  NewClosedH b W W' := by
            intro n W hW W' hstep
            exact ih n W W' (by omega) hstep
          have hloop := dfsLoop_falseH hfalse (getNeighbors b c.1 c.2)
            (c :: V) V' (le_refl _) (fun n hn => mem_getNeighbors_valid hn)
            heq
          refine ⟨?_, fun _ => hloop.1 (List.mem_cons_self c V), ?_⟩
          · exact List.Subset.trans (fun x hx => List.mem_cons_of_mem c hx)
              hloop.1
          · intro z hz hzV
            by_cases hzc : z = c
            · subst hzc
              exact ⟨h3, fun nb hnb honb => hloop.2.1 nb hnb honb⟩
            · refine hloop.2.2 z hz ?_
              intro hmem
              rcases List.mem_cons.mp hmem with h | h
              · exact hzc h
              · exact hzV h

lemma closedNGH_step {b : HexBoard} {fuel : Nat} {c : Int × Int}
    {V V' : List (Int × Int)} (hU : unvisitedCount b V < fuel)
    (hC : ClosedNGH b V)
    (heq : dfsHorizontal b fuel c V = (false, V')) : ClosedNGH b V' := by
  obtain ⟨hsub, _, hnew⟩ := dfsH_false b fuel c V V' hU heq
  intro z hz
  by_cases hzV : z ∈ V
  · obtain ⟨hg, hcl⟩ := hC z hzV
    exact ⟨hg, fun n hn hon => hsub (hcl n hn hon)⟩
  · exact hnew z hz hzV

lemma reach_in_closedH {b : HexBoard} {V : List (Int × Int)}
    (hC : ClosedNGH b V) {s t : Int × Int} (hs : s ∈ V)
    (h : ReachH b s t) : t ∈ V ∧ t.2 ≠ (b.size : Int) - 1 := by
  induction h with
  | refl => exact ⟨hs, (hC s hs).1⟩
  | tail _ hbc ih =>
    have hin := (hC _ ih.1).2 _ hbc.1 hbc.2
    exact ⟨hin, (hC _ hin).1⟩

lemma checkHGo_false (b : HexBoard) :
    ∀ (rows : List Int) (V : List (Int × Int)), ClosedNGH b V →
      checkHorizontalGo b rows V = false →
      ∀ row ∈ rows, ownedBy b (row, 0) 2 = true →
      ∀ t, ReachH b (row, 0) t → t.2 ≠ (b.size : Int) - 1 := by
  intro rows
  induction rows with
  | nil => intro V _ _ row hrow0; exact absurd hrow0 (List.not_mem_nil row)
  | cons row rows ih =>
    intro V hC heq row' hrow1 ho t hreach
    simp only [checkHorizontalGo] at heq
    by_cases hoc : ownedBy b (row, 0) 2 = true
    · rw [if_pos hoc] at heq
      rcases hd : dfsHorizontal b (dfsFuel b) (row, 0) V with ⟨res, V'⟩
      rw [hd] at heq
      cases res
      · have hU := unvisitedCount_lt_dfsFuel b V
        have hC' := closedNGH_step hU hC hd
        rcases List.mem_cons.mp hrow1 with rfl | hrow2
        · have hin : (row', (0 : Int)) ∈ V' :=
            (dfsH_false b _ _ _ _ hU hd).2.1 (ownedBy_valid ho)
          exact (reach_in_closedH hC' hin hreach).2
        · exact ih V' hC' heq row' hrow2 ho t hreach
      · exact absurd (show (true : Bool) = false from heq) (by simp)
    · rw [if_neg hoc] at heq
      rcases List.mem_cons.mp hrow1 with rfl | hrow2
      · exact absurd ho hoc
      · exact ih V hC heq row' hrow2 ho t hreach

/-- What `checkHorizontalConnection` decides: player 2 has a chain of own
cells from the left column to the right column. -/
lemma checkHorizontal_iff (b : HexBoard) :
    checkHorizontalConnection b = true ↔ winPathH b := by
  constructor
  · exact checkHGo_sound b _ []
  · intro hw
    by_contra hfalse
    have hne : checkHorizontalConnection b = false :=
      (Bool.not_eq_true _).mp hfalse
    obtain ⟨s, t, hs0, hso, hreach, ht⟩ := hw
    have hbounds := isValid_bounds (ownedBy_valid hso)
    have hrow0 : s.1 ∈ (List.range b.size).map Int.ofNat := by
      rw [List.mem_map]
      exact ⟨s.1.toNat, List.mem_range.mpr (by omega),
        Int.toNat_of_nonneg (by omega)⟩
    have hs_eq : s = (s.1, 0) := by
      rcases s with ⟨a, d⟩
      simp only at hs0
      simp [hs0]
    rw [hs_eq] at hso hreach
    exact checkHGo_false b _ [] (fun z hz => absurd hz (List.not_mem_nil z))
      hne s.1 hrow0 hso t hreach ht


/-! ## Monotonicity of win detection (C8) -/

/-- **C8.** Win detection is monotone under adding marks: if `checkWin`
accepts side `p` on a board, it still accepts `p` on any board of the
same size and shape in which each cell is either unchanged or has been
set from empty to `p`. -/
theorem win_monotone (b b' : HexBoard) (p : Nat)
    (hsz : b'.size = b.size) (hsh : b'.shape = b.shape)
    (hmono : ∀ r c : Int, getCell b' r c = getCell b r c ∨
      (getCell b r c = some none ∧ getCell b' r c = some (some p)))
    (hwin : checkWin b p = true) : checkWin b' p = true := by
  have hown : ∀ q : Int × Int, ownedBy b q p = true → ownedBy b' q p = true := by
    intro q hq
    rw [ownedBy_iff] at hq ⊢
    rcases hmono q.1 q.2 with h | ⟨h1, _⟩
    · rw [h, hq]
    · rw [hq] at h1
      simp at h1
  by_cases hp1 : p = 1
  · subst hp1
    simp only [checkWin, if_true] at hwin ⊢
    rw [checkVertical_iff] at hwin ⊢
    obtain ⟨s, t, hs0, hso, hreach, ht⟩ := hwin
    refine ⟨s, t, hs0, hown s hso, ?_, by rw [hsz]; exact ht⟩
    refine Relation.ReflTransGen.mono ?_ hreach
    intro u v huv
    exact ⟨(getNeighbors_congr hsz hsh u.1 u.2).symm ▸ huv.1, hown v huv.2⟩
  · by_cases hp2 : p = 2
    · subst hp2
      simp only [checkWin, if_true] at hwin ⊢
      rw [if_neg hp1] at hwin ⊢
      rw [checkHorizontal_iff] at hwin ⊢
      obtain ⟨s, t, hs0, hso, hreach, ht⟩ := hwin
      refine ⟨s, t, hs0, hown s hso, ?_, by rw [hsz]; exact ht⟩
      refine Relation.ReflTransGen.mono ?_ hreach
      intro u v huv
      exact ⟨(getNeighbors_congr hsz hsh u.1 u.2).symm ▸ huv.1, hown v huv.2⟩
    · simp [checkWin, hp1, hp2] at hwin

/-- Witness for `win_monotone`: the winning 2×2 board `boardB` stays
winning for player 1 after adding the stone at `(1,1)` (giving
`boardC`). -/
theorem win_monotone_witness :
    checkWin boardB 1 = true ∧ checkWin boardC 1 = true :=
  ⟨by decide,
   win_monotone boardB boardC 1 rfl rfl
    (by
      intro r c
      by_cases hv : isValidPosition boardB r c = true
      · have hb := isValid_bounds hv
        have hr : r = 0 ∨ r = 1 := by
          rcases hb with ⟨h1, h2, _⟩
          have : (boardB.size : Int) = 2 := by decide
          omega
        have hc : c = 0 ∨ c = 1 := by
          rcases hb with ⟨_, _, h3, h4⟩
          have : (boardB.size : Int) = 2 := by decide
          omega
        rcases hr with rfl | rfl <;> rcases hc with rfl | rfl <;> decide
      · left
        have h1 : getCell boardB r c = none := by
          unfold getCell; rw [if_neg hv]
        have h2 : getCell boardC r c = none := by
          unfold getCell
          rw [@isValid_congr boardB boardC rfl rfl r c, if_neg hv]
        rw [h1, h2])
    (by decide)⟩

/-! ## No simultaneous win in reachable game states (C7) -/

lemma bool_eq_of_iff {x y : Bool} (h : x = true ↔ y = true) : x = y := by
  cases x <;> cases y <;> simp_all

lemma checkVertical_fresh (size : Nat) (shape : Shape) :
    checkVerticalConnection (freshBoard size shape) = false := by
  by_contra h
  obtain ⟨s, t, _, hso, _, _⟩ :=
    (checkVertical_iff _).mp ((Bool.not_eq_false _).mp h)
  rw [ownedBy_iff] at hso
  unfold getCell at hso
  split at hso
  · simp [freshBoard] at hso
  · cases hso

lemma checkHorizontal_fresh (size : Nat) (shape : Shape) :
    checkHorizontalConnection (freshBoard size shape) = false := by
  by_contra h
  obtain ⟨s, t, _, hso, _, _⟩ :=
    (checkHorizontal_iff _).mp ((Bool.not_eq_false _).mp h)
  rw [ownedBy_iff] at hso
  unfold getCell at hso
  split at hso
  · simp [freshBoard] at hso
  · cases hso

lemma checkWin_fresh (size : Nat) (shape : Shape) (p : Nat) :
    checkWin (freshBoard size shape) p = false := by
  unfold checkWin
  split
  · exact checkVertical_fresh size shape
  · split
    · exact checkHorizontal_fresh size shape
    · rfl

lemma winPathV_congr {b b' : HexBoard} (hsz : b'.size = b.size)
    (hsh : b'.shape = b.shape)
    (hown : ∀ x : Int × Int, ownedBy b' x 1 = ownedBy b x 1) :
    winPathV b' ↔ winPathV b := by
  unfold winPathV ReachV StepV
  rw [hsz]
  have hN := getNeighbors_congr hsz hsh
  constructor
  · rintro ⟨s, t, h1, h2, h3, h4⟩
    refine ⟨s, t, h1, hown s ▸ h2, ?_, h4⟩
    refine Relation.ReflTransGen.mono ?_ h3
    intro u v huv
    exact ⟨hN u.1 u.2 ▸ huv.1, hown v ▸ huv.2⟩
  · rintro ⟨s, t, h1, h2, h3, h4⟩
    refine ⟨s, t, h1, (hown s).symm ▸ h2, ?_, h4⟩
    refine Relation.ReflTransGen.mono ?_ h3
    intro u v huv
    exact ⟨(hN u.1 u.2).symm ▸ huv.1, (hown v).symm ▸ huv.2⟩

lemma winPathH_congr {b b' : HexBoard} (hsz : b'.size = b.size)
    (hsh : b'.shape = b.shape)
    (hown : ∀ x : Int × Int, ownedBy b' x 2 = ownedBy b x 2) :
    winPathH b' ↔ winPathH b := by
  unfold winPathH ReachH StepH
  rw [hsz]
  have hN := getNeighbors_congr hsz hsh
  constructor
  · rintro ⟨s, t, h1, h2, h3, h4⟩
    refine ⟨s, t, h1, hown s ▸ h2, ?_, h4⟩
    refine Relation.ReflTransGen.mono ?_ h3
    intro u v huv
    exact ⟨hN u.1 u.2 ▸ huv.1, hown v ▸ huv.2⟩
  · rintro ⟨s, t, h1, h2, h3, h4⟩
    refine ⟨s, t, h1, (hown s).symm ▸ h2, ?_, h4⟩
    refine Relation.ReflTransGen.mono ?_ h3
    intro u v huv
    exact ⟨(hN u.1 u.2).symm ▸ huv.1, (hown v).symm ▸ huv.2⟩

/-- Placing a stone of side `p` on an empty cell does not change the win
check of a different side `q`. -/
lemma checkWin_place_other {b : HexBoard} {r c : Int} {p q : Nat}
    (hq12 : q = 1 ∨ q = 2) (hqp : q ≠ p)
    (he : getCell b r c = some none) :
    checkWin (makeMove b r c p).2 q = checkWin b q := by
  have hmk : (makeMove b r c p).2 = setOwner b r c (some p) := by
    simp [makeMove, he]
  rw [hmk]
  have hown : ∀ x : Int × Int,
      ownedBy (setOwner b r c (some p)) x q = ownedBy b x q := by
    intro x
    unfold ownedBy
    rw [decide_eq_decide, getCell_setOwner]
    by_cases hx : x.1 = r ∧ x.2 = c
    · rw [if_pos hx]
      constructor
      · intro hcontra
        split at hcontra
        · have : p = q := by
            injection hcontra with h'; injection h'
          exact absurd this.symm hqp
        · cases hcontra
      · intro hcontra
        obtain ⟨hx1, hx2⟩ := hx
        rw [hx1, hx2, he] at hcontra
        simp at hcontra
    · rw [if_neg hx]
  rcases hq12 with rfl | rfl
  · simp only [checkWin, if_true]
    exact bool_eq_of_iff
      (by rw [checkVertical_iff, checkVertical_iff]
          exact winPathV_congr rfl rfl hown)
  · simp only [checkWin, if_true]
    rw [if_neg (by omega : ¬(2 : Nat) = 1), if_neg (by omega : ¬(2 : Nat) = 1)]
    exact bool_eq_of_iff
      (by rw [checkHorizontal_iff, checkHorizontal_iff]
          exact winPathH_congr rfl rfl hown)

lemma game_inv {g : GameState} (h : ReachableGame g) :
    (g.currentPlayerIndex = 0 ∨ g.currentPlayerIndex = 1) ∧
    (g.gameOver = false →
      checkWin g.board 1 = false ∧ checkWin g.board 2 = false) ∧
    ¬ (checkWin g.board 1 = true ∧ checkWin g.board 2 = true) := by
  induction h with
  | init size shape =>
    refine ⟨Or.inl rfl,
      fun _ => ⟨checkWin_fresh size shape 1, checkWin_fresh size shape 2⟩, ?_⟩
    rintro ⟨h1, _⟩
    have h1' : checkWin (freshBoard size shape) 1 = true := h1
    rw [checkWin_fresh size shape 1] at h1'
    cases h1'
  | move row col hg ih =>
    rcases ih with ⟨hidx, hng, hnb⟩
    rename_i g'
    unfold gameMakeMove
    by_cases hgo : g'.gameOver
    · rw [if_pos hgo]; exact ⟨hidx, hng, hnb⟩
    · rw [if_neg hgo]
      by_cases hv : ¬ isValidPosition g'.board row col = true
      · rw [if_pos hv]; exact ⟨hidx, hng, hnb⟩
      · rw [if_neg hv]
        by_cases hemp : ¬ getCell g'.board row col = some none
        · rw [if_pos hemp]; exact ⟨hidx, hng, hnb⟩
        · rw [if_neg hemp]
          push_neg at hemp
          have hnow := hng ((Bool.not_eq_true _).mp
            (by exact fun hc => hgo (by exact_mod_cast hc)))
          have hq : g'.currentPlayerIndex + 1 = 1 ∨
              g'.currentPlayerIndex + 1 = 2 := by
            rcases hidx with h | h <;> simp [h]
          have hostill : ∀ q, (q = 1 ∨ q = 2) →
              q ≠ g'.currentPlayerIndex + 1 →
              checkWin (makeMove g'.board row col
                (g'.currentPlayerIndex + 1)).2 q = false := by
            intro q hq12 hqp
            rw [checkWin_place_other hq12 hqp hemp]
            rcases hq12 with rfl | rfl
            · exact hnow.1
            · exact hnow.2
          by_cases hw : checkWin (makeMove g'.board row col
              (g'.currentPlayerIndex + 1)).2 (g'.currentPlayerIndex + 1) = true
          · rw [if_pos hw]
            refine ⟨hidx, fun hcontra => absurd hcontra (by simp), ?_⟩
            rintro ⟨hw1, hw2⟩
            rcases hq with hq1 | hq2
            · rw [hostill 2 (Or.inr rfl) (by omega)] at hw2
              cases hw2
            · rw [hostill 1 (Or.inl rfl) (by omega)] at hw1
              cases hw1
          · rw [if_neg hw]
            have hw' := (Bool.not_eq_true _).mp hw
            have hboth : ∀ q, q = 1 ∨ q = 2 →
                checkWin (makeMove g'.board row col
                  (g'.currentPlayerIndex + 1)).2 q = false := by
              intro q hq12
              by_cases hqp : q = g'.currentPlayerIndex + 1
              · rw [hqp]; exact hw'
              · exact hostill q hq12 hqp
            by_cases hdraw : getEmptyCells (makeMove g'.board row col
                (g'.currentPlayerIndex + 1)).2 = []
            · rw [if_pos hdraw]
              refine ⟨hidx, fun hcontra => absurd hcontra (by simp), ?_⟩
              rintro ⟨hw1, _⟩
              rw [hboth 1 (Or.inl rfl)] at hw1
              cases hw1
            · rw [if_neg hdraw]
              refine ⟨by rcases hidx with h | h <;> simp [h],
                fun _ => ⟨hboth 1 (Or.inl rfl), hboth 2 (Or.inr rfl)⟩, ?_⟩
              rintro ⟨hw1, _⟩
              rw [hboth 1 (Or.inl rfl)] at hw1
              cases hw1

/-- **C7.** In every game state reachable from a fresh game by legal
placements (the game's `makeMove`, which refuses moves after the game is
over), at most one of the two win checks holds: `checkWin 1` and
`checkWin 2` are never simultaneously true. -/
theorem no_simultaneous_win (g : GameState) (h : ReachableGame g) :
    ¬ (checkWin g.board 1 = true ∧ checkWin g.board 2 = true) :=
  (game_inv h).2.2

/-- Witness for `no_simultaneous_win` at a concrete reachable state. -/
theorem no_simultaneous_win_witness :
    ¬ (checkWin (gameMakeMove (initialGame 2 Shape.hexagon) 0 0).board 1 = true ∧
       checkWin (gameMakeMove (initialGame 2 Shape.hexagon) 0 0).board 2 = true) :=
  no_simultaneous_win _
    (ReachableGame.move 0 0 (ReachableGame.init 2 Shape.hexagon))

/-! ## Component analysis: connectivity is an equivalence on a side's
cells (C5) -/

lemma mem_getNeighbors_iff (b : HexBoard) (r c : Int) (v : Int × Int) :
    v ∈ getNeighbors b r c ↔
      isValidPosition b v.1 v.2 = true ∧ (v.1 - r, v.2 - c) ∈ hexOffsets := by
  unfold getNeighbors
  rw [List.mem_filter]
  constructor
  · rintro ⟨hmem, hpred⟩
    rw [List.mem_map] at hmem
    obtain ⟨d, hd, rfl⟩ := hmem
    rw [getCell_isSome] at hpred
    refine ⟨hpred, ?_⟩
    simpa using hd
  · rintro ⟨hval, hoff⟩
    refine ⟨?_, by rw [getCell_isSome]; exact hval⟩
    rw [List.mem_map]
    refine ⟨(v.1 - r, v.2 - c), hoff, ?_⟩
    have h1 : r + (v.1 - r) = v.1 := by ring
    have h2 : c + (v.2 - c) = v.2 := by ring
    rw [h1, h2]

lemma hexOffsets_neg {d : Int × Int} (h : d ∈ hexOffsets) :
    (-d.1, -d.2) ∈ hexOffsets := by
  simp only [hexOffsets, List.mem_cons, List.not_mem_nil, or_false] at h ⊢
  rcases h with h | h | h | h | h | h <;> rw [h] <;> simp

lemma getNeighbors_symm {b : HexBoard} {u v : Int × Int}
    (hu : isValidPosition b u.1 u.2 = true)
    (hv : v ∈ getNeighbors b u.1 u.2) : u ∈ getNeighbors b v.1 v.2 := by
  rw [mem_getNeighbors_iff] at hv ⊢
  refine ⟨hu, ?_⟩
  have := hexOffsets_neg hv.2
  simpa [neg_sub] using this

lemma stepC_symm (b : HexBoard) (p : Nat) : Symmetric (StepC b p) := by
  intro u v huv
  exact ⟨getNeighbors_symm (ownedBy_valid huv.2.1) huv.1, huv.2.2, huv.2.1⟩

lemma reachC_symm {b : HexBoard} {p : Nat} {s y : Int × Int}
    (h : ReachC b p s y) : ReachC b p y s :=
  (Relation.ReflTransGen.symmetric (stepC_symm b p)) h

lemma reachC_owned {b : HexBoard} {p : Nat} {s y : Int × Int}
    (hs : ownedBy b s p = true) (h : ReachC b p s y) :
    ownedBy b y p = true := by
  induction h with
  | refl => exact hs
  | tail _ hbc _ => exact hbc.2.2

/-- Inside an `OwnClosed` visited set, a component chain never escapes. -/
lemma reachC_in_ownClosed {b : HexBoard} {p : Nat} {V : List (Int × Int)}
    (hVC : OwnClosed b p V) {y t : Int × Int} (hy : y ∈ V)
    (h : ReachC b p y t) : t ∈ V := by
  induction h with
  | refl => exact hy
  | tail _ hbc ih => exact hVC _ ih hbc.2.1 _ hbc.1 hbc.2.2

lemma getNeighbors_length_le (b : HexBoard) (r c : Int) :
    (getNeighbors b r c).length ≤ 6 := by
  unfold getNeighbors
  calc (List.filter _ _).length
      ≤ ((hexOffsets.map fun d => (r + d.1, c + d.2))).length :=
        List.length_filter_le _ _
    _ = 6 := by rw [List.length_map]; rfl

/-! ### List minimum/maximum versus `Finset` minimum/maximum -/

lemma intListMin_spec (x : Int) (xs : List Int) :
    xs.foldl min x ∈ x :: xs ∧ ∀ y ∈ x :: xs, xs.foldl min x ≤ y := by
  induction xs generalizing x with
  | nil =>
    refine ⟨List.mem_cons_self x [], ?_⟩
    intro y hy
    rcases List.mem_cons.mp hy with rfl | h
    · exact le_refl y
    · exact absurd h (List.not_mem_nil y)
  | cons z zs ih =>
    obtain ⟨hmem, hle⟩ := ih (min x z)
    simp only [List.foldl_cons]
    constructor
    · rcases List.mem_cons.mp hmem with h | h
      · rw [h]
        rcases min_cases x z with ⟨he, _⟩ | ⟨he, _⟩ <;> rw [he]
        · exact List.mem_cons_self x (z :: zs)
        · exact List.mem_cons_of_mem x (List.mem_cons_self z zs)
      · exact List.mem_cons_of_mem x (List.mem_cons_of_mem z h)
    · intro y hy
      rcases List.mem_cons.mp hy with h | hy'
      · rw [h]
        exact le_trans (hle _ (List.mem_cons_self _ _)) (min_le_left x z)
      · rcases List.mem_cons.mp hy' with h | hy''
        · rw [h]
          exact le_trans (hle _ (List.mem_cons_self _ _)) (min_le_right x z)
        · exact hle y (List.mem_cons_of_mem _ hy'')

lemma intListMax_spec (x : Int) (xs : List Int) :
    xs.foldl max x ∈ x :: xs ∧ ∀ y ∈ x :: xs, y ≤ xs.foldl max x := by
  induction xs generalizing x with
  | nil =>
    refine ⟨List.mem_cons_self x [], ?_⟩
    intro y hy
    rcases List.mem_cons.mp hy with rfl | h
    · exact le_refl y
    · exact absurd h (List.not_mem_nil y)
  | cons z zs ih =>
    obtain ⟨hmem, hle⟩ := ih (max x z)
    simp only [List.foldl_cons]
    constructor
    · rcases List.mem_cons.mp hmem with h | h
      · rw [h]
        rcases max_cases x z with ⟨he, _⟩ | ⟨he, _⟩ <;> rw [he]
        · exact List.mem_cons_self x (z :: zs)
        · exact List.mem_cons_of_mem x (List.mem_cons_self z zs)
      · exact List.mem_cons_of_mem x (List.mem_cons_of_mem z h)
    · intro y hy
      rcases List.mem_cons.mp hy with h | hy'
      · rw [h]
        exact le_trans (le_max_left x z) (hle _ (List.mem_cons_self _ _))
      · rcases List.mem_cons.mp hy' with h | hy''
        · rw [h]
          exact le_trans (le_max_right x z) (hle _ (List.mem_cons_self _ _))
        · exact hle y (List.mem_cons_of_mem _ hy'')

lemma intListMin_eq_finsetMin (l : List Int) (hne : l ≠ []) :
    (l.toFinset.min).getD 0 = intListMin l := by
  rcases l with _ | ⟨x, xs⟩
  · exact absurd rfl hne
  · have hK : (x :: xs).toFinset.Nonempty := ⟨x, by simp⟩
    obtain ⟨hmem, hle⟩ := intListMin_spec x xs
    rw [← Finset.coe_min' hK]
    have h1 : (x :: xs).toFinset.min' hK = intListMin (x :: xs) := by
      refine le_antisymm (Finset.min'_le _ _ (by
        rw [List.mem_toFinset]; exact hmem)) ?_
      refine Finset.le_min' _ _ _ fun y hy => ?_
      exact hle y (List.mem_toFinset.mp hy)
    rw [h1]
    rfl

lemma intListMax_eq_finsetMax (l : List Int) (hne : l ≠ []) :
    (l.toFinset.max).getD 0 = intListMax l := by
  rcases l with _ | ⟨x, xs⟩
  · exact absurd rfl hne
  · have hK : (x :: xs).toFinset.Nonempty := ⟨x, by simp⟩
    obtain ⟨hmem, hle⟩ := intListMax_spec x xs
    rw [← Finset.coe_max' hK]
    have h1 : (x :: xs).toFinset.max' hK = intListMax (x :: xs) := by
      refine le_antisymm ?_ (Finset.le_max' _ _ (by
        rw [List.mem_toFinset]; exact hmem))
      refine Finset.max'_le _ _ _ fun y hy => ?_
      exact hle y (List.mem_toFinset.mp hy)
    rw [h1]
    rfl

/-- Run lemma for the component worklist: the visited set only grows,
every stack entry ends up visited, the collected cells are exactly the
newly visited cells owned by the player, every collected cell has all its
neighbors visited, the collected list stays duplicate-free, and (for any
predicate `S` closed under same-side adjacency and holding on the owned
stack entries) everything collected satisfies `S`. -/
lemma getCCGo_spec (b : HexBoard) (p : Nat) (S : Int × Int → Prop)
    (hSstep : ∀ z, S z → ownedBy b z p = true →
      ∀ n ∈ getNeighbors b z.1 z.2, ownedBy b n p = true → S n) :
    ∀ (fuel : Nat) (stack V acc : List (Int × Int)),
      stack.length + 7 * unvisitedCount b V < fuel →
      (∀ x ∈ stack, isValidPosition b x.1 x.2 = true) →
      (∀ x ∈ stack, ownedBy b x p = true → S x) →
      acc.Nodup → (∀ y ∈ acc, y ∈ V) → (∀ y ∈ acc, S y) →
      V ⊆ (getCCGo b p fuel stack V acc).2 ∧
      (∃ ext, (getCCGo b p fuel stack V acc).1 = acc ++ ext) ∧
      (∀ x ∈ stack, x ∈ (getCCGo b p fuel stack V acc).2) ∧
      (∀ z, z ∈ (getCCGo b p fuel stack V acc).2 → z ∉ V →
        ownedBy b z p = true →
        z ∈ (getCCGo b p fuel stack V acc).1 ∧
        ∀ n ∈ getNeighbors b z.1 z.2, n ∈ (getCCGo b p fuel stack V acc).2) ∧
      (∀ z ∈ (getCCGo b p fuel stack V acc).1, z ∉ acc →
        ownedBy b z p = true ∧ z ∈ (getCCGo b p fuel stack V acc).2 ∧
          z ∉ V) ∧
      (getCCGo b p fuel stack V acc).1.Nodup ∧
      (∀ y ∈ (getCCGo b p fuel stack V acc).1,
        y ∈ (getCCGo b p fuel stack V acc).2 ∧ S y) := by
  intro fuel
  induction fuel with
  | zero => intro stack V acc hfuel _ _ _ _ _; omega
  | succ f ih =>
    intro stack V acc hfuel hvalid hS hnd haccV haccS
    rcases stack with _ | ⟨c, rest⟩
    · refine ⟨fun x hx => hx, ⟨[], (List.append_nil acc).symm⟩,
        fun x hx => absurd hx (List.not_mem_nil x),
        fun z hz hz' _ => absurd hz hz',
        fun z hz hz' => absurd hz hz', hnd,
        fun y hy => ⟨haccV y hy, haccS y hy⟩⟩
    · have hfuel' : rest.length + 7 * unvisitedCount b V < f := by
        simp only [List.length_cons] at hfuel; omega
      have hcval := hvalid c (List.mem_cons_self c rest)
      simp only [getCCGo]
      by_cases h1 : c ∈ V
      · rw [if_pos h1]
        obtain ⟨i1, i2, i3, i4, i5, i6, i7⟩ := ih rest V acc
          (by omega) (fun x hx => hvalid x (List.mem_cons_of_mem c hx))
          (fun x hx => hS x (List.mem_cons_of_mem c hx)) hnd haccV haccS
        refine ⟨i1, i2, ?_, i4, i5, i6, i7⟩
        intro x hx
        rcases List.mem_cons.mp hx with rfl | hx'
        · exact i1 h1
        · exact i3 x hx'
      · rw [if_neg h1]
        have hUlt : unvisitedCount b (c :: V) < unvisitedCount b V :=
          unvisitedCount_cons_lt b hcval h1
        have haccV' : ∀ y ∈ acc, y ∈ c :: V :=
          fun y hy => List.mem_cons_of_mem c (haccV y hy)
        by_cases howned : ownedBy b c p = true
        · -- the interesting case: collect `c` and push its neighbors
          rw [if_pos howned]
          have hcS : S c := hS c (List.mem_cons_self c rest) howned
          have hplen :
              (((getNeighbors b c.1 c.2).filter
                fun n => decide (n ∉ c :: V)).reverse).length ≤ 6 := by
            rw [List.length_reverse]
            exact le_trans (List.length_filter_le _ _)
              (getNeighbors_length_le b c.1 c.2)
          have hpushes : ∀ x ∈ ((getNeighbors b c.1 c.2).filter
              fun n => decide (n ∉ c :: V)).reverse,
              x ∈ getNeighbors b c.1 c.2 ∧ x ∉ c :: V := by
            intro x hx
            rw [List.mem_reverse, List.mem_filter] at hx
            exact ⟨hx.1, by simpa using hx.2⟩
          have hnd' : (acc ++ [c]).Nodup := by
            rw [List.nodup_append]
            exact ⟨hnd, List.nodup_singleton c,
              fun a ha hb => h1 (by
                rcases List.mem_singleton.mp hb with rfl
                exact haccV a ha)⟩
          have haccV2 : ∀ y ∈ acc ++ [c], y ∈ c :: V := by
            intro y hy
            rcases List.mem_append.mp hy with h | h
            · exact haccV' y h
            · rcases List.mem_singleton.mp h with rfl
              exact List.mem_cons_self y V
          have haccS2 : ∀ y ∈ acc ++ [c], S y := by
            intro y hy
            rcases List.mem_append.mp hy with h | h
            · exact haccS y h
            · rcases List.mem_singleton.mp h with rfl
              exact hcS
          obtain ⟨i1, i2, i3, i4, i5, i6, i7⟩ := ih
            (((getNeighbors b c.1 c.2).filter
              fun n => decide (n ∉ c :: V)).reverse ++ rest) (c :: V)
            (acc ++ [c])
            (by rw [List.length_append]; omega)
            (by
              intro x hx
              rcases List.mem_append.mp hx with h | h
              · exact mem_getNeighbors_valid (hpushes x h).1
              · exact hvalid x (List.mem_cons_of_mem c h))
            (by
              intro x hx hxo
              rcases List.mem_append.mp hx with h | h
              · exact hSstep c hcS howned x (hpushes x h).1 hxo
              · exact hS x (List.mem_cons_of_mem c h) hxo)
            hnd' haccV2 haccS2
          have hcV' : c ∈ (getCCGo b p f
              (((getNeighbors b c.1 c.2).filter
                fun n => decide (n ∉ c :: V)).reverse ++ rest) (c :: V)
              (acc ++ [c])).2 :=
            i1 (List.mem_cons_self c V)
          have hcacc : c ∈ (getCCGo b p f
              (((getNeighbors b c.1 c.2).filter
                fun n => decide (n ∉ c :: V)).reverse ++ rest) (c :: V)
              (acc ++ [c])).1 := by
            obtain ⟨ext, hext⟩ := i2
            rw [hext]
            exact List.mem_append_left ext
              (List.mem_append_right acc (List.mem_singleton.mpr rfl))
          refine ⟨List.Subset.trans (List.subset_cons_self c V) i1, ?_,
            ?_, ?_, ?_, i6, i7⟩
          · obtain ⟨ext, hext⟩ := i2
            exact ⟨[c] ++ ext, by rw [hext, List.append_assoc]⟩
          · intro x hx
            rcases List.mem_cons.mp hx with rfl | hx'
            · exact hcV'
            · exact i3 x (List.mem_append_right _ hx')
          · intro z hz hzV hzo
            by_cases hzc : z = c
            · subst hzc
              refine ⟨hcacc, ?_⟩
              intro n hn
              by_cases hnV : n ∈ z :: V
              · exact i1 hnV
              · refine i3 n (List.mem_append_left _ ?_)
                rw [List.mem_reverse, List.mem_filter]
                exact ⟨hn, by simpa using hnV⟩
            · exact i4 z hz (fun hmem => by
                rcases List.mem_cons.mp hmem with h | h
                · exact hzc h
                · exact hzV h) hzo
          · intro z hz hza
            by_cases hz2 : z ∈ acc ++ [c]
            · rcases List.mem_append.mp hz2 with h | h
              · exact absurd h hza
              · rcases List.mem_singleton.mp h with rfl
                exact ⟨howned, hcV', h1⟩
            · obtain ⟨o1, o2, o3⟩ := i5 z hz hz2
              exact ⟨o1, o2, fun hmem => o3 (List.mem_cons_of_mem c hmem)⟩
        · -- cell empty, missing, or owned by the other side: mark
          -- visited and skip
          rw [if_neg howned]
          obtain ⟨i1, i2, i3, i4, i5, i6, i7⟩ := ih rest (c :: V) acc
            (by omega) (fun x hx => hvalid x (List.mem_cons_of_mem c hx))
            (fun x hx => hS x (List.mem_cons_of_mem c hx)) hnd haccV' haccS
          refine ⟨List.Subset.trans (List.subset_cons_self c V) i1, i2, ?_,
            ?_, ?_, i6, i7⟩
          · intro x hx
            rcases List.mem_cons.mp hx with rfl | hx'
            · exact i1 (List.mem_cons_self x V)
            · exact i3 x hx'
          · intro z hz hzV hzo
            by_cases hzc : z = c
            · exact absurd (hzc ▸ hzo) howned
            · exact i4 z hz (fun hmem => by
                rcases List.mem_cons.mp hmem with h | h
                · exact hzc h
                · exact hzV h) hzo
          · intro z hz hza
            obtain ⟨o1, o2, o3⟩ := i5 z hz hza
            exact ⟨o1, o2, fun hmem => o3 (List.mem_cons_of_mem c hmem)⟩

/-- What one call of `getConnectedComponent` on a fresh seed collects:
exactly the seed's connected component, duplicate-free; the new visited
set extends the old one by the component and its (non-own) border and
stays `OwnClosed`. -/
lemma getConnectedComponent_spec (b : HexBoard) (p : Nat) (s : Int × Int)
    (V : List (Int × Int)) (hs_own : ownedBy b s p = true) (hs_nin : s ∉ V)
    (hVC : OwnClosed b p V) :
    (∀ y, y ∈ (getConnectedComponent b s p V).1 ↔ ReachC b p s y) ∧
    (getConnectedComponent b s p V).1.Nodup ∧
    V ⊆ (getConnectedComponent b s p V).2 ∧
    (getConnectedComponent b s p V).1 ⊆ (getConnectedComponent b s p V).2 ∧
    (∀ z ∈ (getConnectedComponent b s p V).2, ownedBy b z p = true →
      z ∈ V ∨ z ∈ (getConnectedComponent b s p V).1) ∧
    OwnClosed b p (getConnectedComponent b s p V).2 ∧
    (∀ y ∈ (getConnectedComponent b s p V).1, y ∉ V) ∧
    (∀ y ∈ (getConnectedComponent b s p V).1, ownedBy b y p = true) := by
  have hU : 1 + 7 * unvisitedCount b V < ccFuel b := by
    have h1 := unvisitedCount_lt_dfsFuel b V
    unfold dfsFuel at h1
    unfold ccFuel
    omega
  obtain ⟨j1, j2, j3, j4, j5, j6, j7⟩ :=
    getCCGo_spec b p (ReachC b p s)
      (fun z hz hzo n hn hno =>
        Relation.ReflTransGen.tail hz ⟨hn, hzo, hno⟩)
      (ccFuel b) [s] V [] (by simpa using hU)
      (by
        intro x hx
        rcases List.mem_singleton.mp hx with rfl
        exact ownedBy_valid hs_own)
      (by
        intro x hx _
        rcases List.mem_singleton.mp hx with rfl
        exact Relation.ReflTransGen.refl)
      List.nodup_nil (by intro y hy; cases hy) (by intro y hy; cases hy)
  have hVdisj : ∀ y, ReachC b p s y → y ∉ V := by
    intro y hy hyV
    exact hs_nin (reachC_in_ownClosed hVC hyV (reachC_symm hy))
  have hcomp : ∀ y, ReachC b p s y →
      y ∈ (getCCGo b p (ccFuel b) [s] V []).1 := by
    intro y hy
    induction hy with
    | refl =>
      exact (j4 s (j3 s (List.mem_singleton.mpr rfl)) hs_nin hs_own).1
    | tail hmy hstep ihm =>
      rename_i m t
      obtain ⟨om, _, omV⟩ := j5 m ihm (List.not_mem_nil m)
      have hmres := (j7 m ihm).1
      have htres := (j4 m hmres omV om).2 t hstep.1
      exact (j4 t htres (hVdisj t (Relation.ReflTransGen.tail hmy hstep))
        hstep.2.2).1
  refine ⟨?_, j6, j1, fun y hy => (j7 y hy).1, ?_, ?_, ?_, ?_⟩
  · exact fun y => ⟨fun hy => (j7 y hy).2, fun hy => hcomp y hy⟩
  · intro z hz hzo
    by_cases hzV : z ∈ V
    · exact Or.inl hzV
    · exact Or.inr (j4 z hz hzV hzo).1
  · intro z hz hzo n hn hno
    by_cases hzV : z ∈ V
    · exact j1 (hVC z hzV hzo n hn hno)
    · exact (j4 z hz hzV hzo).2 n hn
  · exact fun y hy => (j5 y hy (List.not_mem_nil y)).2.2
  · exact fun y hy => (j5 y hy (List.not_mem_nil y)).1

lemma axisOf_bounds {b : HexBoard} {p : Nat} {q : Int × Int}
    (h : ownedBy b q p = true) :
    0 ≤ axisOf p q ∧ axisOf p q ≤ (b.size : Int) - 1 := by
  have hb := isValid_bounds (ownedBy_valid h)
  unfold axisOf
  split <;> constructor <;> omega

lemma eval_branch_eq (comp : List (Int × Int)) (N : Nat)
    (ax : Int × Int → Int) (hne : comp ≠ []) (hnd : comp.Nodup)
    (hlo : ∀ q ∈ comp, 0 ≤ ax q) (hhi : ∀ q ∈ comp, ax q ≤ (N : Int) - 1) :
    (comp.length : Int) * 10 +
      (intListMax (comp.map ax) - intListMin (comp.map ax)) * 50 +
      (if intListMin (comp.map ax) = 0 then 100 else 0) +
      (if intListMax (comp.map ax) = (N : Int) - 1 then 100 else 0) =
    10 * comp.toFinset.card +
      50 * (((comp.toFinset.image ax).max.getD 0) -
        ((comp.toFinset.image ax).min.getD 0)) +
      (if ∃ q ∈ comp.toFinset, ax q = 0 then 100 else 0) +
      (if ∃ q ∈ comp.toFinset, ax q = (N : Int) - 1 then 100 else 0) := by
  have hmapne : comp.map ax ≠ [] := by
    intro h
    exact hne (List.map_eq_nil_iff.mp h)
  have hcard : comp.toFinset.card = comp.length :=
    List.toFinset_card_of_nodup hnd
  have himg : comp.toFinset.image ax = (comp.map ax).toFinset := by
    ext y
    simp only [Finset.mem_image, List.mem_toFinset, List.mem_map]
  have hminspec : intListMin (comp.map ax) ∈ comp.map ax ∧
      ∀ y ∈ comp.map ax, intListMin (comp.map ax) ≤ y := by
    rcases hm : comp.map ax with _ | ⟨x, xs⟩
    · exact absurd hm hmapne
    · exact intListMin_spec x xs
  have hmaxspec : intListMax (comp.map ax) ∈ comp.map ax ∧
      ∀ y ∈ comp.map ax, y ≤ intListMax (comp.map ax) := by
    rcases hm : comp.map ax with _ | ⟨x, xs⟩
    · exact absurd hm hmapne
    · exact intListMax_spec x xs
  have hmin_iff : intListMin (comp.map ax) = 0 ↔
      ∃ q ∈ comp.toFinset, ax q = 0 := by
    constructor
    · intro h0
      obtain ⟨q, hq, hqa⟩ := List.mem_map.mp hminspec.1
      exact ⟨q, List.mem_toFinset.mpr hq, by rw [hqa, h0]⟩
    · rintro ⟨q, hq, hq0⟩
      have h1 : intListMin (comp.map ax) ≤ 0 := by
        have := hminspec.2 (ax q)
          (List.mem_map.mpr ⟨q, List.mem_toFinset.mp hq, rfl⟩)
        omega
      obtain ⟨q', hq', hq'a⟩ := List.mem_map.mp hminspec.1
      have h2 : 0 ≤ intListMin (comp.map ax) := hq'a ▸ hlo q' hq'
      omega
  have hmax_iff : intListMax (comp.map ax) = (N : Int) - 1 ↔
      ∃ q ∈ comp.toFinset, ax q = (N : Int) - 1 := by
    constructor
    · intro h0
      obtain ⟨q, hq, hqa⟩ := List.mem_map.mp hmaxspec.1
      exact ⟨q, List.mem_toFinset.mpr hq, by rw [hqa, h0]⟩
    · rintro ⟨q, hq, hq0⟩
      have h1 : (N : Int) - 1 ≤ intListMax (comp.map ax) := by
        have := hmaxspec.2 (ax q)
          (List.mem_map.mpr ⟨q, List.mem_toFinset.mp hq, rfl⟩)
        omega
      obtain ⟨q', hq', hq'a⟩ := List.mem_map.mp hmaxspec.1
      have h2 : intListMax (comp.map ax) ≤ (N : Int) - 1 :=
        hq'a ▸ hhi q' hq'
      omega
  rw [hcard, himg, intListMin_eq_finsetMin _ hmapne,
    intListMax_eq_finsetMax _ hmapne, if_congr hmin_iff rfl rfl,
    if_congr hmax_iff rfl rfl]
  ring

/-- The code's `evaluateComponent` computes the spec's component score on
the component's underlying set. -/
lemma evaluateComponent_eq_spec (comp : List (Int × Int)) (b : HexBoard)
    (p : Nat) (hne : comp ≠ []) (hnd : comp.Nodup)
    (hown : ∀ q ∈ comp, ownedBy b q p = true) :
    evaluateComponent comp b.size p = specComponentScore b.size p
      comp.toFinset := by
  have hlo : ∀ q ∈ comp, 0 ≤ axisOf p q :=
    fun q hq => (axisOf_bounds (hown q hq)).1
  have hhi : ∀ q ∈ comp, axisOf p q ≤ (b.size : Int) - 1 :=
    fun q hq => (axisOf_bounds (hown q hq)).2
  unfold evaluateComponent specComponentScore
  rw [if_neg hne]
  show (if p = 1 then
      (comp.length : Int) * 10 +
        (intListMax (comp.map Prod.fst) - intListMin (comp.map Prod.fst)) * 50 +
        (if intListMin (comp.map Prod.fst) = 0 then 100 else 0) +
        (if intListMax (comp.map Prod.fst) = (b.size : Int) - 1 then 100
          else 0)
    else
      (comp.length : Int) * 10 +
        (intListMax (comp.map Prod.snd) - intListMin (comp.map Prod.snd)) * 50 +
        (if intListMin (comp.map Prod.snd) = 0 then 100 else 0) +
        (if intListMax (comp.map Prod.snd) = (b.size : Int) - 1 then 100
          else 0)) = _
  by_cases hp : p = 1
  · subst hp
    have hax : axisOf 1 = Prod.fst := by unfold axisOf; rw [if_pos rfl]
    rw [if_pos rfl, hax]
    exact eval_branch_eq comp b.size Prod.fst hne hnd
      (by intro q hq; have h := hlo q hq; rwa [hax] at h)
      (by intro q hq; have h := hhi q hq; rwa [hax] at h)
  · have hax : axisOf p = Prod.snd := by unfold axisOf; rw [if_neg hp]
    rw [if_neg hp, hax]
    exact eval_branch_eq comp b.size Prod.snd hne hnd
      (by intro q hq; have h := hlo q hq; rwa [hax] at h)
      (by intro q hq; have h := hhi q hq; rwa [hax] at h)

/-- Run lemma for the raster scan of `calculateConnectivity`: starting
from an `OwnClosed` visited set such that the remaining raster list covers
every still-unvisited cell of the side, the scan adds exactly one spec
component score per still-unvisited connected component. -/
lemma calcConnGo_spec (b : HexBoard) (p : Nat) :
    ∀ (todo V : List (Int × Int)) (conn : Int),
      OwnClosed b p V →
      (∀ q, ownedBy b q p = true → q ∉ V → q ∈ todo) →
      ∃ Ks : List (Finset (Int × Int)),
        (∀ K ∈ Ks, ∃ s, ownedBy b s p = true ∧ s ∉ V ∧
          ∀ y, y ∈ K ↔ ReachC b p s y) ∧
        List.Pairwise (fun K L => Disjoint K L) Ks ∧
        (∀ q, ownedBy b q p = true → q ∉ V → ∃ K ∈ Ks, q ∈ K) ∧
        calcConnGo b p todo V conn =
          conn + (Ks.map (specComponentScore b.size p)).sum := by
  intro todo
  induction todo with
  | nil =>
    intro V conn hVC hcov
    refine ⟨[], ?_, List.Pairwise.nil, ?_, by simp [calcConnGo]⟩
    · intro K hK
      exact absurd hK (List.not_mem_nil K)
    · intro q hq hqV
      exact absurd (hcov q hq hqV) (List.not_mem_nil q)
  | cons c rest ih =>
    intro V conn hVC hcov
    simp only [calcConnGo]
    by_cases hc : ownedBy b c p = true ∧ c ∉ V
    · rw [if_pos hc]
      obtain ⟨g1, g2, g3, g4, g5, g6, g7, g8⟩ :=
        getConnectedComponent_spec b p c V hc.1 hc.2 hVC
      have hcin : c ∈ (getConnectedComponent b c p V).1 :=
        (g1 c).mpr Relation.ReflTransGen.refl
      have hcov' : ∀ q, ownedBy b q p = true →
          q ∉ (getConnectedComponent b c p V).2 → q ∈ rest := by
        intro q hq hqV'
        rcases List.mem_cons.mp (hcov q hq fun hqV => hqV' (g3 hqV)) with
          rfl | h
        · exact absurd (g4 hcin) hqV'
        · exact h
      obtain ⟨Ks', k1, k2, k3, k4⟩ :=
        ih (getConnectedComponent b c p V).2
          (conn + evaluateComponent (getConnectedComponent b c p V).1
            b.size p) g6 hcov'
      have hdisj : ∀ L ∈ Ks',
          Disjoint (getConnectedComponent b c p V).1.toFinset L := by
        intro L hL
        obtain ⟨s, hso, hsV', hsmem⟩ := k1 L hL
        rw [Finset.disjoint_left]
        intro q hqK hqL
        have hqV' : q ∈ (getConnectedComponent b c p V).2 :=
          g4 (List.mem_toFinset.mp hqK)
        exact hsV'
          (reachC_in_ownClosed g6 hqV' (reachC_symm ((hsmem q).mp hqL)))
      refine ⟨(getConnectedComponent b c p V).1.toFinset :: Ks',
        ?_, List.Pairwise.cons hdisj k2, ?_, ?_⟩
      · intro K hK
        rcases List.mem_cons.mp hK with rfl | hK'
        · exact ⟨c, hc.1, hc.2, fun y => List.mem_toFinset.trans (g1 y)⟩
        · obtain ⟨s, hso, hsV', hsmem⟩ := k1 K hK'
          exact ⟨s, hso, fun hsV => hsV' (g3 hsV), hsmem⟩
      · intro q hq hqV
        by_cases hqc : q ∈ (getConnectedComponent b c p V).1
        · exact ⟨_, List.mem_cons_self _ _, List.mem_toFinset.mpr hqc⟩
        · have hqV' : q ∉ (getConnectedComponent b c p V).2 := by
            intro hmem
            rcases g5 q hmem hq with h | h
            · exact hqV h
            · exact hqc h
          obtain ⟨K, hK, hqK⟩ := k3 q hq hqV'
          exact ⟨K, List.mem_cons_of_mem _ hK, hqK⟩
      · rw [k4]
        have hne : (getConnectedComponent b c p V).1 ≠ [] := by
          intro h
          rw [h] at hcin
          exact (List.not_mem_nil c) hcin
        rw [evaluateComponent_eq_spec _ b p hne g2 g8]
        simp only [List.map_cons, List.sum_cons]
        ring
    · rw [if_neg hc]
      have hcov' : ∀ q, ownedBy b q p = true → q ∉ V → q ∈ rest := by
        intro q hq hqV
        rcases List.mem_cons.mp (hcov q hq hqV) with rfl | h
        · exact absurd ⟨hq, hqV⟩ hc
        · exact h
      exact ih V conn hVC hcov'

/-- `calculateConnectivity` decomposes the side's cells into pairwise
disjoint connected components and sums the spec's score over them. -/
lemma calculateConnectivity_spec (b : HexBoard) (p : Nat) :
    ∃ Ks : List (Finset (Int × Int)),
      (∀ K ∈ Ks, ∃ s, ownedBy b s p = true ∧
        ∀ y, y ∈ K ↔ ReachC b p s y) ∧
      List.Pairwise (fun K L => Disjoint K L) Ks ∧
      (∀ q, ownedBy b q p = true → ∃ K ∈ Ks, q ∈ K) ∧
      calculateConnectivity b p =
        (Ks.map (specComponentScore b.size p)).sum := by
  obtain ⟨Ks, k1, k2, k3, k4⟩ := calcConnGo_spec b p (rasterCoords b) [] 0
    (by intro z hz; exact absurd hz (List.not_mem_nil z))
    (fun q hq _ =>
      (mem_rasterCoords b q).mpr (isValid_bounds (ownedBy_valid hq)))
  refine ⟨Ks, ?_, k2, ?_, ?_⟩
  · intro K hK
    obtain ⟨s, hso, _, hsmem⟩ := k1 K hK
    exact ⟨s, hso, hsmem⟩
  · exact fun q hq => k3 q hq (List.not_mem_nil q)
  · unfold calculateConnectivity
    rw [k4]
    exact zero_add _

/-- **C5.** For every side, the connectivity value computed by
`AIPlayer.calculateConnectivity` is the sum, over that side's same-side
connected components (the classes of `ReachC`: chains of own cells linked
by `getNeighbors`), of `10` per cell, plus `50` per unit of span along the
side's connection axis (rows for player 1, columns for player 2), plus
`100` if the component touches the start boundary and another `100` if it
touches the goal boundary (`specComponentScore`); and on a non-terminal
board `AIPlayer.evaluatePosition`'s score is own connectivity minus
opponent connectivity. -/
theorem connectivity_formula (b : HexBoard) (p : Nat)
    (hnt : (evaluatePosition p b).2 = false) :
    (∀ side : Nat, ∃ Ks : List (Finset (Int × Int)),
      (∀ K ∈ Ks, ∃ s, ownedBy b s side = true ∧
        ∀ y, y ∈ K ↔ ReachC b side s y) ∧
      List.Pairwise (fun K L => Disjoint K L) Ks ∧
      (∀ q, ownedBy b q side = true → ∃ K ∈ Ks, q ∈ K) ∧
      calculateConnectivity b side =
        (Ks.map (specComponentScore b.size side)).sum) ∧
    (evaluatePosition p b).1 =
      calculateConnectivity b p - calculateConnectivity b (oppOf p) := by
  refine ⟨fun side => calculateConnectivity_spec b side, ?_⟩
  unfold evaluatePosition at hnt ⊢
  by_cases h1 : checkWin b p = true
  · rw [if_pos h1] at hnt
    exact absurd hnt (by simp)
  · rw [if_neg h1] at hnt ⊢
    by_cases h2 : checkWin b (oppOf p) = true
    · rw [if_pos h2] at hnt
      exact absurd hnt (by simp)
    · rw [if_neg h2] at hnt ⊢
      by_cases h3 : getEmptyCells b = []
      · rw [if_pos h3] at hnt
        exact absurd hnt (by simp)
      · rw [if_neg h3]

theorem connectivity_formula_witness :
    (evaluatePosition 1 boardA).2 = false ∧
    ((∀ side : Nat, ∃ Ks : List (Finset (Int × Int)),
      (∀ K ∈ Ks, ∃ s, ownedBy boardA s side = true ∧
        ∀ y, y ∈ K ↔ ReachC boardA side s y) ∧
      List.Pairwise (fun K L => Disjoint K L) Ks ∧
      (∀ q, ownedBy boardA q side = true → ∃ K ∈ Ks, q ∈ K) ∧
      calculateConnectivity boardA side =
        (Ks.map (specComponentScore boardA.size side)).sum) ∧
    (evaluatePosition 1 boardA).1 =
      calculateConnectivity boardA 1 -
        calculateConnectivity boardA (oppOf 1)) :=
  ⟨by decide, connectivity_formula boardA 1 (by decide)⟩

end HexGame
